import Mathlib

/-!
Verification of the HelioSat data-retrieval library (heliosat/caching.py and
heliosat/spacecraft.py) against its natural-language specification.

The Python sources are shallowly embedded as executable Lean definitions:

* the on-disk pickle cache becomes a string-keyed finite map with the pickle
  round trip modelled as the identity on the stored object;
* JSON values (`json.dumps(..., sort_keys=True)`) become the inductive `JVal`
  with a character-exact serializer, and `hashlib.sha256` is implemented
  bit-for-bit over `Nat` with explicit `% 2^32` arithmetic;
* numpy arrays become `NpArr` records carrying an explicit shape list, a dtype
  tag and the flattened elements, with `np.squeeze` / slicing / `np.hstack` /
  boolean masking modelled on those records;
* Python datetimes become integer epoch values (seconds, or microseconds for
  the sub-second timestamp parser), converted through the proleptic Gregorian
  calendar; scalar data values are embedded as integers, which preserves every
  order comparison the filtering code performs;
* fallible Python code (`KeyError`, `IndexError`, `RuntimeError`, …) returns
  `Except`.
-/

set_option maxRecDepth 20000

namespace HelioSat

/-! ## Caching subsystem (heliosat/caching.py)

The cache directory is modelled as a finite map from keys to stored objects;
`pickle.dump`/`pickle.load` round-trip through the identity, and a missing
`<key>.cache` file is a `none` entry.  `KeyError` raising code returns
`Except PyErr`. -/

/-- Python exception kinds raised by the embedded code paths. -/
inductive PyErr where
  | keyError (msg : String) : PyErr
  | notImplementedError (msg : String) : PyErr
  | indexError (msg : String) : PyErr
  | typeError (msg : String) : PyErr
  | valueError (msg : String) : PyErr
  | runtimeError (msg : String) : PyErr
deriving DecidableEq

/-- Equality of `Except` results is decidable when both component types have
decidable equality; used to evaluate the models on concrete inputs. -/
instance {ε α : Type} [DecidableEq ε] [DecidableEq α] :
    DecidableEq (Except ε α) := fun a b =>
  match a, b with
  | .ok x, .ok y =>
      if h : x = y then isTrue (by rw [h])
      else isFalse (by intro hh; cases hh; exact h rfl)
  | .error x, .error y =>
      if h : x = y then isTrue (by rw [h])
      else isFalse (by intro hh; cases hh; exact h rfl)
  | .ok _, .error _ => isFalse (by intro h; cases h)
  | .error _, .ok _ => isFalse (by intro h; cases h)

/-- The cache directory: for each key, the object stored in `<key>.cache`, if
that file exists. -/
def CacheState (α : Type) : Type := String → Option α

/-- Model of `caching.cache_entry_exists`: `os.path.exists` on `<key>.cache`. -/
def cache_entry_exists {α : Type} (st : CacheState α) (key : String) : Bool :=
  (st key).isSome

/-- Model of `caching.set_cache_entry`: pickle `obj` into `<key>.cache`
(silently overwriting). -/
def set_cache_entry {α : Type} (st : CacheState α) (key : String) (obj : α) :
    CacheState α :=
  fun k => if k = key then some obj else st k

/-- Model of `caching.get_cache_entry`: raises `KeyError` when
`cache_entry_exists` is false, otherwise unpickles the stored object. -/
def get_cache_entry {α : Type} (st : CacheState α) (key : String) :
    Except PyErr α :=
  if cache_entry_exists st key then
    match st key with
    | some obj => .ok obj
    | none => .error (.keyError key)
  else .error (.keyError key)

/-- Model of `caching.delete_cache_entry`: raises `KeyError` when
`cache_entry_exists` is false, otherwise removes `<key>.cache`; returns the
cache directory after the removal. -/
def delete_cache_entry {α : Type} (st : CacheState α) (key : String) :
    Except PyErr (CacheState α) :=
  if cache_entry_exists st key then
    .ok (fun k => if k = key then none else st k)
  else .error (.keyError key)

/-! ## Spacecraft construction (spacecraft.py, `Spacecraft.__init__`) -/

/-- The process-global `heliosat._spice["spacecraft"]` slot: `none` before the
registry JSON has been loaded, `some registry` afterwards.  Descriptors are
opaque payloads. -/
def SpiceRegistry (δ : Type) : Type := Option (List (String × δ))

/-- Model of the registry-lookup part of `Spacecraft.__init__` (spacecraft.py
lines 39-52).  `registryFile` is the content of `json/spacecraft.json`.  When
the global slot is unloaded, the code loads the file and indexes it directly
(`heliosat._spice["spacecraft"][name]`), so an unknown name raises `KeyError`;
when the slot is already loaded, the `elif`/`else` chain raises
`NotImplementedError` for an unknown name.  Returns the updated global slot and
the selected descriptor. -/
def spacecraft_init {δ : Type} (registryFile : List (String × δ))
    (spiceState : SpiceRegistry δ) (name : String) :
    Except PyErr (List (String × δ) × δ) :=
  match spiceState with
  | none =>
      match registryFile.lookup name with
      | some d => .ok (registryFile, d)
      | none => .error (.keyError name)
  | some registry =>
      match registry.lookup name with
      | some d => .ok (registry, d)
      | none => .error (.notImplementedError name)

/-! ## Decimal formatting helpers (`str`, `"{:02d}".format`, …) -/

/-- Fuel-driven digit extraction, least to most significant handled by the
recursion; `fuel ≥ n` always suffices since a positive number has no more
digits than its value. -/
def natCharsF (fuel n : Nat) : List Char :=
  match fuel with
  | 0 => []
  | fuel + 1 =>
      if n = 0 then []
      else natCharsF fuel (n / 10) ++ [Char.ofNat (48 + n % 10)]

/-- Decimal digits of a natural number, most significant first (`str(n)`). -/
def natChars (n : Nat) : List Char :=
  if n = 0 then ['0'] else natCharsF n n

/-- Decimal rendering of an integer (`str(n)` for Python `int`). -/
def intChars (n : Int) : List Char :=
  if n < 0 then '-' :: natChars n.natAbs else natChars n.toNat

/-- Zero-padding to a minimum width (`"{:0Nd}".format(n)` for `n ≥ 0`). -/
def padZeroTo (w : Nat) (n : Int) : List Char :=
  List.replicate (w - (intChars n).length) '0' ++ intChars n

/-! ## Proleptic Gregorian calendar (Python `datetime` date arithmetic)

Days are counted from the Unix epoch 1970-01-01; datetimes are integer epoch
seconds.  `daysFromCivil`/`civilFromDays` are the standard civil-calendar
conversions, matching `datetime.date` for every representable date. -/

/-- Day number (days since 1970-01-01) of the civil date `(y, m, d)`. -/
def daysFromCivil (y m d : Int) : Int :=
  let y2 := if m ≤ 2 then y - 1 else y
  let era := Int.fdiv y2 400
  let yoe := y2 - era * 400
  let mShifted := if 2 < m then m - 3 else m + 9
  let doy := Int.fdiv (153 * mShifted + 2) 5 + d - 1
  let doe := yoe * 365 + Int.fdiv yoe 4 - Int.fdiv yoe 100 + doy
  era * 146097 + doe - 719468

/-- Civil date `(y, m, d)` of a day number. -/
def civilFromDays (z : Int) : Int × Int × Int :=
  let z2 := z + 719468
  let era := Int.fdiv z2 146097
  let doe := z2 - era * 146097
  let yoe := Int.fdiv
    (doe - Int.fdiv doe 1460 + Int.fdiv doe 36524 - Int.fdiv doe 146096) 365
  let y := yoe + era * 400
  let doy := doe - (365 * yoe + Int.fdiv yoe 4 - Int.fdiv yoe 100)
  let mp := Int.fdiv (5 * doy + 2) 153
  let d := doy - Int.fdiv (153 * mp + 2) 5 + 1
  let m := if mp < 10 then mp + 3 else mp - 9
  (if m ≤ 2 then y + 1 else y, m, d)

/-- Epoch seconds of midnight on the civil date `(y, m, d)`; the unit tests
and examples use it to name concrete datetimes. -/
def midnight (y m d : Int) : Int := 86400 * daysFromCivil y m d

/-- Three-letter uppercase month abbreviation
(`day.strftime("%B")[:3].upper()`). -/
def monthAbbrev (m : Int) : List Char :=
  if m = 1 then "JAN".data else if m = 2 then "FEB".data
  else if m = 3 then "MAR".data else if m = 4 then "APR".data
  else if m = 5 then "MAY".data else if m = 6 then "JUN".data
  else if m = 7 then "JUL".data else if m = 8 then "AUG".data
  else if m = 9 then "SEP".data else if m = 10 then "OCT".data
  else if m = 11 then "NOV".data else "DEC".data

/-! ## String replacement (`str.replace`) -/

/-- Fuel-driven worker for `replaceAll`; replaces non-overlapping occurrences
left to right, like Python `str.replace`.  One unit of fuel is spent per
consumed character or match, so `fuel = s.length` always suffices. -/
def replaceAllF (fuel : Nat) (s pat rep : List Char) : List Char :=
  match fuel, s with
  | 0, s => s
  | _ + 1, [] => []
  | fuel + 1, c :: rest =>
      if pat ≠ [] ∧ pat.isPrefixOf (c :: rest) then
        rep ++ replaceAllF fuel ((c :: rest).drop pat.length) pat rep
      else
        c :: replaceAllF fuel rest pat rep

/-- Python `s.replace(pat, rep)` (for nonempty `pat`). -/
def replaceAll (s pat rep : List Char) : List Char :=
  replaceAllF s.length s pat rep

/-! ## URL templating (spacecraft.py, `urls_build`) -/

/-- A version descriptor from `spacecraft.json`: a half-open datetime interval
(epoch seconds, already parsed by `strptime`) and the identifier strings for
the `{V0}`, `{V1}`, … placeholders. -/
structure Version where
  version_start : Int
  version_end : Int
  identifiers : List String
deriving DecidableEq

/-- Date-placeholder substitution for one day (spacecraft.py lines 466-482),
in the exact order the code performs the replacements.  `t` is the epoch-second
value of `day = range_start + datetime.timedelta(days=i)`. -/
def buildDayUrl (fmt : List Char) (t : Int) : List Char :=
  let z := Int.fdiv t 86400
  let ymd := civilFromDays z
  let y := ymd.1
  let m := ymd.2.1
  let doy := z - daysFromCivil y 1 1 + 1
  let doym1 := daysFromCivil y m 1 - daysFromCivil y 1 1 + 1
  let doym2 :=
    (if m = 12 then daysFromCivil (y + 1) 1 1 - 1 else daysFromCivil y (m + 1) 1 - 1)
      - daysFromCivil y 1 1 + 1
  let u := replaceAll fmt "\x7bYYYY\x7d".data (intChars y)
  let u := replaceAll u "\x7bYY\x7d".data (padZeroTo 2 (Int.emod y 100))
  let u := replaceAll u "\x7bMM\x7d".data (padZeroTo 2 m)
  let u := replaceAll u "\x7bMONTH\x7d".data (monthAbbrev m)
  let u := replaceAll u "\x7bDD\x7d".data (padZeroTo 2 ymd.2.2)
  let u := replaceAll u "\x7bDOY\x7d".data (padZeroTo 3 doy)
  let u := replaceAll u "\x7bDOYM1\x7d".data (padZeroTo 3 doym1)
  replaceAll u "\x7bDOYM2\x7d".data (padZeroTo 3 doym2)

/-- Whether day `t` falls in the half-open interval of version `v`
(`strptime(version_start) <= day < strptime(version_end)`). -/
def inVersion (t : Int) (v : Version) : Bool :=
  decide (v.version_start ≤ t) && decide (t < v.version_end)

/-- Substitution of the `{V0}`, `{V1}`, … placeholders from an identifier
list, in index order, as the code's inner `for` loop does. -/
def substIdentifiers (url : List Char) (ids : List String) : List Char :=
  ids.enum.foldl
    (fun u p => replaceAll u ("\x7bV".data ++ natChars p.1 ++ [Char.ofNat 125]) p.2.data)
    url

/-- Version handling for one day (spacecraft.py lines 484-498): the first
version descriptor whose interval contains the day supplies the identifiers;
no match raises `RuntimeError`. -/
def buildDayUrlVersioned (fmt : List Char) (t : Int)
    (versions : Option (List Version)) : Except PyErr (List Char) :=
  let url := buildDayUrl fmt t
  match versions with
  | none => .ok url
  | some vs =>
      match vs.find? (inVersion t) with
      | some v => .ok (substIdentifiers url v.identifiers)
      | none => .error (.runtimeError "no version found")

/-- Sequential traversal that stops at the first raised exception, like a
Python `for` loop appending to an accumulator list. -/
def exceptMapM {α β : Type} (f : α → Except PyErr β) : List α → Except PyErr (List β)
  | [] => .ok []
  | a :: t =>
      match f a with
      | .error e => .error e
      | .ok b => (exceptMapM f t).map (fun bs => b :: bs)

/-- Model of `urls_build` (spacecraft.py lines 435-502): one URL per
`range_start + i days` for `i` in `range((range_end - range_start).days + 1)`,
each built by date substitution and then, when versions are declared, version
substitution; the first day with no matching version aborts with
`RuntimeError`. -/
def urls_build (fmt : String) (range_start range_end : Int)
    (versions : Option (List Version)) : Except PyErr (List String) :=
  exceptMapM (fun t => (buildDayUrlVersioned fmt.data t versions).map String.mk)
    ((List.range (Int.fdiv (range_end - range_start) 86400 + 1).toNat).map
      (fun i : Nat => range_start + 86400 * (i : Int)))

/-! ## PDS3 timestamp parsing (spacecraft.py, `read_file`, `decode_string`)

`datetime.datetime.strptime(string, format).timestamp()` is modelled for the
directives the repository's formats use (`%Y %m %d %H %M %S %f` plus literal
characters), reading fixed-width zero-padded fields as the PDS3 files contain
them.  The result is an integer count of microseconds since the Unix epoch
(the naive datetime is interpreted in UTC; only differences of timestamps
matter to the claims, so the fixed timezone offset of `timestamp()` is
irrelevant).  Invalid field values (month 13, second 60, …) make the
`datetime` constructor raise, modelled as `none`. -/

/-- Parsed field values of a `strptime` call, with CPython's defaults. -/
structure TsFields where
  y : Nat := 1900
  m : Nat := 1
  d : Nat := 1
  h : Nat := 0
  mi : Nat := 0
  s : Nat := 0
  f : Nat := 0
deriving DecidableEq

/-- Numeric value of a run of decimal digit characters. -/
def digitsVal (ds : List Char) : Nat :=
  ds.foldl (fun a c => 10 * a + (c.toNat - 48)) 0

/-- Reads exactly `k` decimal digits from the input, returning the value and
the remaining input. -/
def readDigits (k : Nat) (input : List Char) : Option (Nat × List Char) :=
  let pre := input.take k
  if pre.length = k ∧ pre.all Char.isDigit then some (digitsVal pre, input.drop k)
  else none

/-- Format-directed scan of `strptime`, structural in the format string; the
whole input must be consumed (`unconverted data remains` otherwise). -/
def strptimeGo : List Char → List Char → TsFields → Option TsFields
  | [], input, acc => if input = [] then some acc else none
  | '%' :: dir :: fr, input, acc =>
      if dir = 'Y' then
        match readDigits 4 input with
        | none => none
        | some (v, rest) => strptimeGo fr rest { acc with y := v }
      else if dir = 'm' then
        match readDigits 2 input with
        | none => none
        | some (v, rest) => strptimeGo fr rest { acc with m := v }
      else if dir = 'd' then
        match readDigits 2 input with
        | none => none
        | some (v, rest) => strptimeGo fr rest { acc with d := v }
      else if dir = 'H' then
        match readDigits 2 input with
        | none => none
        | some (v, rest) => strptimeGo fr rest { acc with h := v }
      else if dir = 'M' then
        match readDigits 2 input with
        | none => none
        | some (v, rest) => strptimeGo fr rest { acc with mi := v }
      else if dir = 'S' then
        match readDigits 2 input with
        | none => none
        | some (v, rest) => strptimeGo fr rest { acc with s := v }
      else if dir = 'f' then
        let ds := (input.takeWhile Char.isDigit).take 6
        if ds.length = 0 then none
        else strptimeGo fr (input.drop ds.length)
          { acc with f := digitsVal ds * 10 ^ (6 - ds.length) }
      else none
  | ['%'], _, _ => none
  | c :: fr, input, acc =>
      match input with
      | [] => none
      | i :: ir => if c = i then strptimeGo fr ir acc else none

/-- Number of days in month `m` of year `y`. -/
def daysInMonth (y m : Int) : Int :=
  (if m = 12 then daysFromCivil (y + 1) 1 1 else daysFromCivil y (m + 1) 1)
    - daysFromCivil y m 1

/-- Model of `datetime.datetime.strptime(s, fmt).timestamp()` (UTC), in
microseconds since the Unix epoch; `none` models a `ValueError` from either
the scan or the `datetime` constructor's range checks. -/
def strptimeModel (fmt s : List Char) : Option Int :=
  match strptimeGo fmt s {} with
  | none => none
  | some fields =>
      if 1 ≤ fields.y ∧ fields.y ≤ 9999 ∧ 1 ≤ fields.m ∧ fields.m ≤ 12 ∧
          1 ≤ fields.d ∧ (fields.d : Int) ≤ daysInMonth fields.y fields.m ∧
          fields.h ≤ 23 ∧ fields.mi ≤ 59 ∧ fields.s ≤ 59 then
        some ((daysFromCivil fields.y fields.m fields.d * 86400
            + fields.h * 3600 + fields.mi * 60 + fields.s) * 1000000 + fields.f)
      else none

/-- Boolean suffix test (`str.endswith`). -/
def endsWithL (l p : List Char) : Bool :=
  l.drop (l.length - p.length) == p

/-- Model of the `decode_string` closure (spacecraft.py lines 362-372): a
string ending in `"60.000"` keeps its first 17 characters, gets `"59.000"`
appended, is parsed with the configured format and incremented by one second
(`+ 1` on an epoch-second float, here `+ 1000000` microseconds); any other
string is parsed directly. -/
def decode_string (s fmt : List Char) : Option Int :=
  if endsWithL s "60.000".data then
    (strptimeModel fmt (s.take 17 ++ "59.000".data)).map (· + 1000000)
  else
    strptimeModel fmt s

/-- The default PDS3 time format `"%Y-%m-%dT%H:%M:%S.%f"`. -/
def defaultTimeFormat : List Char := "%Y-%m-%dT%H:%M:%S.%f".data

/-- A zero-padded PDS3-style timestamp string with an explicit seconds-field
suffix: `YYYY-MM-DDTHH:MI:` followed by `ss` (e.g. `"60.000"`). -/
def mkTs (y m d h mi : Nat) (ss : List Char) : List Char :=
  padZeroTo 4 (y : Int) ++ '-' :: (padZeroTo 2 (m : Int) ++ '-' ::
    (padZeroTo 2 (d : Int) ++ 'T' :: (padZeroTo 2 (h : Int) ++ ':' ::
      (padZeroTo 2 (mi : Int) ++ ':' :: ss))))

/-! ## numpy array model

An `NpArr` records a shape, a dtype tag and the flattened elements; squeeze,
row slicing, horizontal stacking and boolean row masking are modelled on it.
Scalar float values are embedded as integers: the filtering code only ever
compares them, and the embedding preserves every order comparison. -/

/-- The two dtypes the pipeline produces. -/
inductive DType where
  | f32 : DType
  | f64 : DType
deriving DecidableEq

/-- A numpy array: shape, dtype, and row-major flattened elements. -/
structure NpArr where
  shape : List Nat
  dtype : DType
  elems : List Int
deriving DecidableEq

/-- `np.squeeze` on a shape: every axis of length 1 is removed. -/
def npsqueeze (shape : List Nat) : List Nat := shape.filter (fun d => d ≠ 1)

/-- Row selection `l[lo : hi + 1]` (the code's `slice(mask[0], mask[-1] + 1)`
always has `lo ≤ hi`). -/
def sliceRows {α : Type} (l : List α) (lo hi : Nat) : List α :=
  (l.drop lo).take (hi + 1 - lo)

/-- Sequential `np.hstack` over the per-column blocks, as the code's loop
accumulates `data_part`. -/
def hstackRows : List (List (List Int)) → List (List Int)
  | [] => []
  | b :: t => t.foldl (fun acc bl => List.zipWith (fun r q => r ++ q) acc bl) b

/-- Number of columns of a row matrix (length of its first row). -/
def rowWidth (rows : List (List Int)) : Nat :=
  ((rows.head?).map List.length).getD 0

/-- The squeezed 1-D float64 time array for a selected row block. -/
def mkTimeArr (ts : List Int) : NpArr :=
  ⟨npsqueeze [ts.length], .f64, ts⟩

/-- The squeezed 2-D float32 data array for a selected row block. -/
def mkDataArr (rows : List (List Int)) : NpArr :=
  ⟨npsqueeze [rows.length, rowWidth rows], .f32, rows.flatten⟩

/-! ## read_file window filtering (spacecraft.py lines 405-432)

After format-specific decoding, `read_file` holds a 1-D `time` array and a
list of 2-D per-column `data` blocks (the reshape step at lines 394-396 has
made every block two-dimensional).  The code then computes
`mask = np.where((time > range_start) & (time < range_end))[0]`, selects the
contiguous slice `slice(mask[0], mask[-1] + 1)`, squeezes both parts, applies
the optional `[min, max]` filter on the first value column (an operation that
needs the squeezed data to still be two-dimensional — `data_part[:, 0]`
raises `IndexError` otherwise), and returns empty arrays when the mask is
empty. -/

/-- Model of the window/value filtering tail of `read_file`.  `time` and the
per-column `blocks` are the decoded columns; `range_start`/`range_end` are the
epoch values of the window bounds. -/
def read_file_window (time : List Int) (blocks : List (List (List Int)))
    (range_start range_end : Int) (values : Option (Int × Int)) :
    Except PyErr (NpArr × NpArr) :=
  match hm : (List.range time.length).filter
      (fun i => decide (range_start < time.getD i 0 ∧ time.getD i 0 < range_end)) with
  | [] => .ok (⟨[0], .f64, []⟩, ⟨[0], .f32, []⟩)
  | i0 :: rest =>
      let hi := (i0 :: rest).getLast (by simp)
      let timeSl := sliceRows time i0 hi
      let rowsSl := hstackRows (blocks.map (fun b => sliceRows b i0 hi))
      let dataArr := mkDataArr rowsSl
      match values with
      | none => .ok (mkTimeArr timeSl, dataArr)
      | some lohi =>
          if dataArr.shape.length = 2 then
            let keep := (timeSl.zip rowsSl).filter
                (fun p => decide (lohi.1 < p.2.headD 0 ∧ p.2.headD 0 < lohi.2))
            .ok (⟨[keep.length], .f64, keep.map Prod.fst⟩,
                 ⟨[keep.length, rowWidth rowsSl], .f32, (keep.map Prod.snd).flatten⟩)
          else .error (.indexError "too many indices for array")


/-! ## get_data_raw concatenation (spacecraft.py lines 159-169)

`results` is the list of per-file `(time, data)` pairs returned by the
`read_file` workers.  The code evaluates `lengths = [len(result[0]) for
result in results]` (raising `TypeError` on a 0-d time array), then
`columns = len(results[0][1][0])` — indexing the FIRST result's data array
unconditionally — then allocates `np.empty` arrays of the summed length and
assigns each file's block into its slice, skipping empty files. -/

/-- `len(a)`: the first axis; `TypeError` on a 0-d array. -/
def npLen (a : NpArr) : Except PyErr Nat :=
  match a.shape with
  | [] => .error (.typeError "len() of unsized object")
  | d :: _ => .ok d

/-- `len(a[0])` for the columns computation: indexing a 0-d array or an empty
first axis raises `IndexError`; a 1-D array yields a scalar row, whose `len()`
raises `TypeError`; a 2-D (or higher) array yields its second axis. -/
def firstRowLen (a : NpArr) : Except PyErr Nat :=
  match a.shape with
  | [] => .error (.indexError "too many indices for array")
  | 0 :: _ => .error (.indexError "index 0 is out of bounds for axis 0 with size 0")
  | (_ + 1) :: [] => .error (.typeError "len() of unsized object")
  | (_ + 1) :: c :: _ => .ok c

/-- Assignment `time[lo:hi] = value` into an `(l,)` slice with numpy
broadcasting: a matching 1-D value or a 0-d scalar is accepted. -/
def assignTime (l : Nat) (a : NpArr) : Except PyErr (List Int) :=
  if a.shape = [l] then .ok a.elems
  else if a.shape = [] then .ok (List.replicate l (a.elems.headD 0))
  else .error (.valueError "could not broadcast input array")

/-- Assignment `data[lo:hi] = value` into an `(l, c)` slice with numpy
broadcasting: an exact `(l, c)` block, a `(c,)` row when `l = 1` (a squeezed
single-row result), or a 0-d scalar. -/
def assignRows (l c : Nat) (a : NpArr) : Except PyErr (List Int) :=
  if a.shape = [l, c] then .ok a.elems
  else if l = 1 ∧ a.shape = [c] then .ok a.elems
  else if a.shape = [] then .ok (List.replicate (l * c) (a.elems.headD 0))
  else .error (.valueError "could not broadcast input array")

/-- Model of the concatenation step of `get_data_raw` (spacecraft.py lines
159-169): per-file lengths from the time arrays, column count from the first
result's data array, then file-order assignment into the pre-sized output
arrays. -/
def get_data_raw_concat (results : List (NpArr × NpArr)) :
    Except PyErr (NpArr × NpArr) := do
  let lengths ← exceptMapM (fun r => npLen r.1) results
  let c ←
    match results with
    | [] => Except.error (.indexError "list index out of range")
    | r0 :: _ => firstRowLen r0.2
  let parts ← exceptMapM
    (fun rl =>
      if 0 < rl.2 then do
        let ts ← assignTime rl.2 rl.1.1
        let ds ← assignRows rl.2 c rl.1.2
        pure (ts, ds)
      else pure ([], []))
    (results.zip lengths)
  pure (⟨[lengths.sum], .f64, (parts.map Prod.fst).flatten⟩,
        ⟨[lengths.sum, c], .f32, (parts.map Prod.snd).flatten⟩)

/-! ## JSON values and `json.dumps(..., sort_keys=True)` (caching.py line 31)

`JVal` embeds the Python values that can appear in a cache-identity record.
Numbers are embedded as integers: CPython prints a float timestamp with its
own shortest-repr algorithm, but every claim about the digest concerns only
the structure of the serialization, which is identical.  `ser` reproduces
`json.JSONEncoder`'s output character for character for that value class
(default separators `", "` and `": "`, `ensure_ascii=True` escaping including
surrogate pairs); `canon` applies the recursive key sorting that
`sort_keys=True` performs, so `dumps = ser ∘ canon`. -/

/-- A JSON-serializable Python value. -/
inductive JVal where
  | jnull : JVal
  | jbool (b : Bool) : JVal
  | jnum (n : Int) : JVal
  | jstr (s : String) : JVal
  | jarr (xs : List JVal) : JVal
  | jobj (kvs : List (String × JVal)) : JVal

/-- Lowercase hexadecimal digit. -/
def hexDigit (d : Nat) : Char :=
  Char.ofNat (if d < 10 then 48 + d else 87 + d)

/-- Four lowercase hex digits of a 16-bit code unit (`\uXXXX`). -/
def hex4 (n : Nat) : List Char :=
  [hexDigit (n / 4096 % 16), hexDigit (n / 256 % 16),
   hexDigit (n / 16 % 16), hexDigit (n % 16)]

/-- CPython `json` `ensure_ascii` escaping of one character: `"` and `\` get
backslash escapes, the five named control characters get short escapes, other
control characters and all non-ASCII code points get `\uXXXX` (a surrogate
pair for astral code points), and printable ASCII passes through. -/
def escapeChar (c : Char) : List Char :=
  let n := c.toNat
  if c = '"' then ['\\', '"']
  else if c = '\\' then ['\\', '\\']
  else if n = 8 then ['\\', 'b']
  else if n = 9 then ['\\', 't']
  else if n = 10 then ['\\', 'n']
  else if n = 12 then ['\\', 'f']
  else if n = 13 then ['\\', 'r']
  else if n < 32 then '\\' :: 'u' :: hex4 n
  else if n < 127 then [c]
  else if n < 65536 then '\\' :: 'u' :: hex4 n
  else '\\' :: 'u' :: hex4 (55296 + (n - 65536) / 1024)
    ++ '\\' :: 'u' :: hex4 (56320 + (n - 65536) % 1024)

/-- Escaped body of a JSON string. -/
def escStr (s : List Char) : List Char := (s.map escapeChar).flatten

/-- A serialized JSON string, quotes included. -/
def serStr (s : String) : List Char := '"' :: escStr s.data ++ ['"']

mutual

/-- Character-exact `json.JSONEncoder` output (unsorted field order). -/
def ser : JVal → List Char
  | .jnull => "null".data
  | .jbool true => "true".data
  | .jbool false => "false".data
  | .jnum n => intChars n
  | .jstr s => serStr s
  | .jarr xs => '[' :: serList xs ++ [']']
  | .jobj kvs => Char.ofNat 123 :: serObj kvs ++ [Char.ofNat 125]

/-- Array elements joined by `", "`. -/
def serList : List JVal → List Char
  | [] => []
  | [v] => ser v
  | v :: w :: t => ser v ++ ',' :: ' ' :: serList (w :: t)

/-- Object items `"key": value` joined by `", "`. -/
def serObj : List (String × JVal) → List Char
  | [] => []
  | [(k, v)] => serStr k ++ ':' :: ' ' :: ser v
  | (k, v) :: q :: t => serStr k ++ ':' :: ' ' :: ser v ++ ',' :: ' ' :: serObj (q :: t)

end

/-- Lexicographic code-point comparison of character lists — the string
comparison Python `sorted` uses on `str` keys. -/
def lexLt : List Char → List Char → Bool
  | [], [] => false
  | [], _ :: _ => true
  | _ :: _, [] => false
  | a :: as2, b :: bs =>
      if a.toNat < b.toNat then true
      else if b.toNat < a.toNat then false
      else lexLt as2 bs

/-- Non-strict key comparison: `a ≤ b` as Python compares `str`. -/
def keyLE (a b : String) : Bool := ! lexLt b.data a.data

/-- Insertion into a key-sorted pair list. -/
def insertPair (p : String × JVal) : List (String × JVal) → List (String × JVal)
  | [] => [p]
  | q :: t => if keyLE p.1 q.1 then p :: q :: t else q :: insertPair p t

/-- Insertion sort of object fields by key (`sorted(d.items())`). -/
def sortPairs : List (String × JVal) → List (String × JVal)
  | [] => []
  | p :: t => insertPair p (sortPairs t)

mutual

/-- Recursive key sorting, the effect of `sort_keys=True`. -/
def canon : JVal → JVal
  | .jnull => .jnull
  | .jbool b => .jbool b
  | .jnum n => .jnum n
  | .jstr s => .jstr s
  | .jarr xs => .jarr (canonList xs)
  | .jobj kvs => .jobj (sortPairs (canonPairs kvs))

/-- `canon` on array elements. -/
def canonList : List JVal → List JVal
  | [] => []
  | v :: t => canon v :: canonList t

/-- `canon` on object field values. -/
def canonPairs : List (String × JVal) → List (String × JVal)
  | [] => []
  | (k, v) :: t => (k, canon v) :: canonPairs t

end

/-- `json.dumps(v, sort_keys=True)` as a character list. -/
def dumps (v : JVal) : List Char := ser (canon v)

/-! ## UTF-8 and SHA-256 (caching.py, `generate_cache_key`) -/

/-- UTF-8 encoding of one character (`str.encode("utf-8")`). -/
def utf8Char (c : Char) : List Nat :=
  let n := c.toNat
  if n < 128 then [n]
  else if n < 2048 then [192 + n / 64, 128 + n % 64]
  else if n < 65536 then [224 + n / 4096, 128 + n / 64 % 64, 128 + n % 64]
  else [240 + n / 262144, 128 + n / 4096 % 64, 128 + n / 64 % 64, 128 + n % 64]

/-- UTF-8 encoding of a character list. -/
def utf8 (s : List Char) : List Nat := (s.map utf8Char).flatten

/-- Truncation to a 32-bit word. -/
def w32 (x : Nat) : Nat := x % 4294967296

/-- 32-bit modular addition. -/
def wadd (a b : Nat) : Nat := (a + b) % 4294967296

/-- 32-bit right rotation. -/
def rotr (n x : Nat) : Nat := w32 ((x >>> n) ||| (x <<< (32 - n)))

/-- FIPS 180-4 `Ch`. -/
def chF (x y z : Nat) : Nat := (x &&& y) ^^^ ((x ^^^ 4294967295) &&& z)

/-- FIPS 180-4 `Maj`. -/
def majF (x y z : Nat) : Nat := (x &&& y) ^^^ (x &&& z) ^^^ (y &&& z)

/-- FIPS 180-4 `Σ0`. -/
def bsig0 (x : Nat) : Nat := rotr 2 x ^^^ rotr 13 x ^^^ rotr 22 x

/-- FIPS 180-4 `Σ1`. -/
def bsig1 (x : Nat) : Nat := rotr 6 x ^^^ rotr 11 x ^^^ rotr 25 x

/-- FIPS 180-4 `σ0`. -/
def ssig0 (x : Nat) : Nat := rotr 7 x ^^^ rotr 18 x ^^^ (x >>> 3)

/-- FIPS 180-4 `σ1`. -/
def ssig1 (x : Nat) : Nat := rotr 17 x ^^^ rotr 19 x ^^^ (x >>> 10)

/-- The eight 32-bit working variables of SHA-256. -/
structure Sha8 where
  va : Nat
  vb : Nat
  vc : Nat
  vd : Nat
  ve : Nat
  vf : Nat
  vg : Nat
  vh : Nat
deriving DecidableEq

/-- The SHA-256 initial hash value. -/
def sha256Init : Sha8 :=
  ⟨0x6a09e667, 0xbb67ae85, 0x3c6ef372, 0xa54ff53a,
   0x510e527f, 0x9b05688c, 0x1f83d9ab, 0x5be0cd19⟩

/-- The sixty-four SHA-256 round constants. -/
def sha256K : List Nat :=
  [1116352408, 1899447441, 3049323471, 3921009573,
   961987163, 1508970993, 2453635748, 2870763221,
   3624381080, 310598401, 607225278, 1426881987,
   1925078388, 2162078206, 2614888103, 3248222580,
   3835390401, 4022224774, 264347078, 604807628,
   770255983, 1249150122, 1555081692, 1996064986,
   2554220882, 2821834349, 2952996808, 3210313671,
   3336571891, 3584528711, 113926993, 338241895,
   666307205, 773529912, 1294757372, 1396182291,
   1695183700, 1986661051, 2177026350, 2456956037,
   2730485921, 2820302411, 3259730800, 3345764771,
   3516065817, 3600352804, 4094571909, 275423344,
   430227734, 506948616, 659060556, 883997877,
   958139571, 1322822218, 1537002063, 1747873779,
   1955562222, 2024104815, 2227730452, 2361852424,
   2428436474, 2756734187, 3204031479, 3329325298]

/-- One SHA-256 compression round; the pair carries `(Kᵢ, Wᵢ)`. -/
def sha256Round (st : Sha8) (kw : Nat × Nat) : Sha8 :=
  let t1 := wadd (wadd (wadd st.vh (bsig1 st.ve)) (wadd (chF st.ve st.vf st.vg) kw.1)) kw.2
  let t2 := wadd (bsig0 st.va) (majF st.va st.vb st.vc)
  ⟨wadd t1 t2, st.va, st.vb, st.vc, wadd st.vd t1, st.ve, st.vf, st.vg⟩

/-- The sixteen message words of a 64-byte block, big endian. -/
def wordsOfBlock (b : List Nat) : List Nat :=
  (List.range 16).map (fun i =>
    b.getD (4 * i) 0 * 16777216 + b.getD (4 * i + 1) 0 * 65536
      + b.getD (4 * i + 2) 0 * 256 + b.getD (4 * i + 3) 0)

/-- Message-schedule extension from sixteen to sixty-four words. -/
def extendWords (ws : List Nat) : List Nat :=
  (List.range 48).foldl
    (fun acc _ =>
      acc ++ [wadd (wadd (ssig1 (acc.getD (acc.length - 2) 0))
                         (acc.getD (acc.length - 7) 0))
                   (wadd (ssig0 (acc.getD (acc.length - 15) 0))
                         (acc.getD (acc.length - 16) 0))])
    ws

/-- Compression of one 64-byte block into the running hash value. -/
def sha256Block (h : Sha8) (block : List Nat) : Sha8 :=
  let st := ((sha256K.zip (extendWords (wordsOfBlock block))).foldl sha256Round h)
  ⟨wadd h.va st.va, wadd h.vb st.vb, wadd h.vc st.vc, wadd h.vd st.vd,
   wadd h.ve st.ve, wadd h.vf st.vf, wadd h.vg st.vg, wadd h.vh st.vh⟩

/-- Big-endian 8-byte length field of the SHA-256 padding. -/
def be64 (n : Nat) : List Nat :=
  [n / 72057594037927936 % 256, n / 281474976710656 % 256,
   n / 1099511627776 % 256, n / 4294967296 % 256,
   n / 16777216 % 256, n / 65536 % 256, n / 256 % 256, n % 256]

/-- SHA-256 message padding: `0x80`, zeros to 56 mod 64, bit length. -/
def sha256Pad (msg : List Nat) : List Nat :=
  msg ++ 128 :: List.replicate ((119 - msg.length % 64) % 64) 0
    ++ be64 (8 * msg.length)

/-- Fuel-driven split into 64-byte blocks; `fuel ≥ length` suffices. -/
def chunks64F : Nat → List Nat → List (List Nat)
  | 0, _ => []
  | _ + 1, [] => []
  | fuel + 1, b :: t => (b :: t).take 64 :: chunks64F fuel ((b :: t).drop 64)

/-- Big-endian bytes of one hash word. -/
def wordBytes (w : Nat) : List Nat :=
  [w / 16777216 % 256, w / 65536 % 256, w / 256 % 256, w % 256]

/-- The 32 digest bytes of a final hash value. -/
def digestBytes (h : Sha8) : List Nat :=
  wordBytes h.va ++ wordBytes h.vb ++ wordBytes h.vc ++ wordBytes h.vd
    ++ wordBytes h.ve ++ wordBytes h.vf ++ wordBytes h.vg ++ wordBytes h.vh

/-- `hashlib.sha256(msg).digest()` over a byte list. -/
def sha256Bytes (msg : List Nat) : List Nat :=
  let padded := sha256Pad msg
  digestBytes ((chunks64F padded.length padded).foldl sha256Block sha256Init)

/-- Two lowercase hex digits of a byte. -/
def hexByte (b : Nat) : List Char := [hexDigit (b / 16 % 16), hexDigit (b % 16)]

/-- `hexdigest()`: lowercase hex of the digest bytes. -/
def hexDigestChars (bytes : List Nat) : List Char := (bytes.map hexByte).flatten

/-- Model of `caching.generate_cache_key` (caching.py lines 17-33):
`hashlib.sha256(json.dumps(identifiers, sort_keys=True).encode("utf-8"))
.hexdigest()`. -/
def generate_cache_key (identifiers : JVal) : String :=
  String.mk (hexDigestChars (sha256Bytes (utf8 (dumps identifiers))))

/-! ## get_data identity record (spacecraft.py lines 80-101)

`get_data` builds `identifier = {"data_key": …, "spacecraft": …, "times":
[...]}` and then runs `identifier.update(kwargs)` BEFORE popping `cache` and
`frame` from `kwargs`: `dict.update` copies the entries, so the later pops
mutate only `kwargs` and every keyword option — including `cache`, `frame`
and `frame_static` — stays in the identity record the cache key is derived
from. -/

/-- Python `dict.update`: existing keys are overwritten in place, new keys
are appended in their own order (`kw` has no duplicate keys). -/
def dictUpdate (d kw : List (String × JVal)) : List (String × JVal) :=
  d.map (fun p => ((kw.lookup p.1).map (fun v => (p.1, v))).getD p)
    ++ kw.filter (fun q => (d.lookup q.1).isNone)

/-- The literal `identifier` dictionary of `get_data` before the update. -/
def base_identifier (data_key name : String) (times : List Int) :
    List (String × JVal) :=
  [("data_key", .jstr data_key), ("spacecraft", .jstr name),
   ("times", .jarr (times.map .jnum))]

/-- The identity record `get_data` derives its cache key from: the base
record updated with ALL keyword options. -/
def get_data_identifier (data_key name : String) (times : List Int)
    (kwargs : List (String × JVal)) : JVal :=
  .jobj (dictUpdate (base_identifier data_key name times) kwargs)

/-- The cache key `get_data` uses when caching is requested. -/
def get_data_cache_key (data_key name : String) (times : List Int)
    (kwargs : List (String × JVal)) : String :=
  generate_cache_key (get_data_identifier data_key name times kwargs)

/-! ## Specification-side decoder for the serializer

`unescape` parses one escaped character from the front of a serialized JSON
string body.  It is used only to prove that `escapeChar` is uniquely
decodable, and hence that `ser` is injective. -/

/-- Whether a character is a decimal digit. -/
def isDigitChar (c : Char) : Bool :=
  decide (48 ≤ c.toNat) && decide (c.toNat ≤ 57)

/-- Value of one lowercase hexadecimal digit. -/
def unhex (c : Char) : Option Nat :=
  if 48 ≤ c.toNat ∧ c.toNat ≤ 57 then some (c.toNat - 48)
  else if 97 ≤ c.toNat ∧ c.toNat ≤ 102 then some (c.toNat - 87)
  else none

/-- Parses four hexadecimal digits. -/
def unhex4 : List Char → Option (Nat × List Char)
  | a :: b :: c :: d :: t =>
      match unhex a, unhex b, unhex c, unhex d with
      | some x, some y, some z, some w => some (4096 * x + 256 * y + 16 * z + w, t)
      | _, _, _, _ => none
  | _ => none

/-- Parses one character of a serialized JSON string body, inverting
`escapeChar` (including surrogate pairs). -/
def unescape : List Char → Option (Char × List Char)
  | [] => none
  | c :: t =>
      if c = '\\' then
        match t with
        | [] => none
        | e :: t2 =>
            if e = '"' then some ('"', t2)
            else if e = '\\' then some ('\\', t2)
            else if e = 'b' then some (Char.ofNat 8, t2)
            else if e = 't' then some (Char.ofNat 9, t2)
            else if e = 'n' then some (Char.ofNat 10, t2)
            else if e = 'f' then some (Char.ofNat 12, t2)
            else if e = 'r' then some (Char.ofNat 13, t2)
            else if e = 'u' then
              match unhex4 t2 with
              | none => none
              | some (x, t3) =>
                  if 55296 ≤ x ∧ x < 56320 then
                    match t3 with
                    | c2 :: u2 :: t4 =>
                        if c2 = '\\' ∧ u2 = 'u' then
                          match unhex4 t4 with
                          | none => none
                          | some (y, t5) =>
                              if 56320 ≤ y ∧ y < 57344 then
                                some (Char.ofNat (65536 + 1024 * (x - 55296) + (y - 56320)), t5)
                              else none
                        else none
                    | _ => none
                  else if 56320 ≤ x ∧ x < 57344 then none
                  else some (Char.ofNat x, t3)
            else none
      else if c = '"' then none
      else some (c, t)

/-- The constructor class of a JSON value, read off the first character of
its serialization. -/
def classOf : JVal → Nat
  | .jstr _ => 0
  | .jarr _ => 1
  | .jobj _ => 2
  | .jnull => 3
  | .jbool true => 4
  | .jbool false => 5
  | .jnum _ => 6

/-- Classification of a serialization's first character. -/
def serHeadClass (c : Char) : Nat :=
  if c = '"' then 0
  else if c = '[' then 1
  else if c = Char.ofNat 123 then 2
  else if c = 'n' then 3
  else if c = 't' then 4
  else if c = 'f' then 5
  else 6

/-- What may legally follow a serialized value inside a JSON document: the
end of input, a separator comma, or a closing bracket or brace.  The
restriction makes number boundaries unambiguous. -/
def Follows (r : List Char) : Prop :=
  r = [] ∨ ∃ c t, r = c :: t ∧ (c = ',' ∨ c = ']' ∨ c = Char.ofNat 125)

/-- A JSON value in the canonical form `sort_keys=True` produces: every
object's fields are strictly sorted by key. -/
inductive CanonicalJ : JVal → Prop where
  | cnull : CanonicalJ .jnull
  | cbool (b : Bool) : CanonicalJ (.jbool b)
  | cnum (n : Int) : CanonicalJ (.jnum n)
  | cstr (s : String) : CanonicalJ (.jstr s)
  | carr (xs : List JVal) : (∀ v ∈ xs, CanonicalJ v) → CanonicalJ (.jarr xs)
  | cobj (kvs : List (String × JVal)) :
      kvs.Pairwise (fun p q => lexLt p.1.data q.1.data = true) →
      (∀ p ∈ kvs, CanonicalJ p.2) → CanonicalJ (.jobj kvs)

/-! # Theorems -/

/-! ## Claim C1: cache round trip -/

/-- C1: for every key and object, `set_cache_entry` followed by
`get_cache_entry` returns the stored object; `cache_entry_exists` is true
after `set_cache_entry` and false after a successful `delete_cache_entry`; and
`get_cache_entry` / `delete_cache_entry` on a key that was never set raise
`KeyError`. -/
theorem C1_cache_roundtrip {α : Type} (st : CacheState α) (key : String)
    (obj : α) :
    get_cache_entry (set_cache_entry st key obj) key = .ok obj ∧
    cache_entry_exists (set_cache_entry st key obj) key = true ∧
    (∀ st2 : CacheState α, delete_cache_entry st key = .ok st2 →
      cache_entry_exists st2 key = false) ∧
    (st key = none →
      get_cache_entry st key = .error (.keyError key) ∧
      delete_cache_entry st key = .error (.keyError key)) := by
  refine ⟨?_, ?_, ?_, ?_⟩
  · simp [get_cache_entry, set_cache_entry, cache_entry_exists]
  · simp [set_cache_entry, cache_entry_exists]
  · intro st2 h
    unfold delete_cache_entry at h
    by_cases hex : cache_entry_exists st key
    · simp [hex] at h
      simp [cache_entry_exists, ← h]
    · simp [hex] at h
  · intro hnone
    constructor
    · simp [get_cache_entry, cache_entry_exists, hnone]
    · simp [delete_cache_entry, cache_entry_exists, hnone]

/-- Witness for C1 at a concrete cache state, key and object. -/
theorem C1_cache_roundtrip_witness :
    get_cache_entry (set_cache_entry (fun _ => (none : Option Nat)) "k" 7) "k"
        = .ok 7 ∧
    ((fun _ => (none : Option Nat)) "k" = none →
      get_cache_entry (fun _ => (none : Option Nat)) "k"
        = .error (.keyError "k")) :=
  ⟨(C1_cache_roundtrip (fun _ => none) "k" 7).1,
   fun h => ((C1_cache_roundtrip (fun _ => (none : Option Nat)) "k" 7).2.2.2 h).1⟩

/-! ## Claims C5 and C6: URL templating and version substitution -/

/-- `exceptMapM` of an always-succeeding function is `map` under `.ok`. -/
theorem exceptMapM_ok {α β : Type} (g : α → β) (l : List α) :
    exceptMapM (fun a => (Except.ok (g a) : Except PyErr β)) l = .ok (l.map g) := by
  induction l with
  | nil => rfl
  | cons a t ih => simp [exceptMapM, ih, Except.map]

/-- Without version descriptors, `urls_build` always succeeds and returns the
date-substituted template for every day step in the range. -/
theorem urls_build_none_eq (fmt : String) (rs re : Int) :
    urls_build fmt rs re none
      = .ok ((List.range (Int.fdiv (re - rs) 86400 + 1).toNat).map
          (fun i : Nat => String.mk (buildDayUrl fmt.data (rs + 86400 * (i : Int))))) := by
  unfold urls_build
  have h : (fun t => (buildDayUrlVersioned fmt.data t none).map String.mk)
      = fun t : Int => (Except.ok (String.mk (buildDayUrl fmt.data t)) : Except PyErr String) := by
    funext t
    simp [buildDayUrlVersioned, Except.map]
  rw [h, exceptMapM_ok, List.map_map]
  rfl

/-- On a single-day range, `urls_build` reduces to the one-day builder. -/
theorem urls_build_single_day (fmt : String) (t : Int) (vs : Option (List Version)) :
    urls_build fmt t t vs
      = (buildDayUrlVersioned fmt.data t vs).map (fun u => [String.mk u]) := by
  unfold urls_build
  have hc : (Int.fdiv (t - t) 86400 + 1).toNat = 1 := by
    simp
  rw [hc]
  have hd : (List.range 1).map (fun i : Nat => t + 86400 * (i : Int)) = [t] := by
    simp [List.range_succ]
  rw [hd]
  cases hv : buildDayUrlVersioned fmt.data t vs with
  | ok u => simp [exceptMapM, hv, Except.map]
  | error e => simp [exceptMapM, hv, Except.map]

set_option maxHeartbeats 1000000 in
/-- C5: for every date range (midnight datetimes of day numbers `ds ≤ de`),
`urls_build` without versions returns exactly one URL per calendar day of the
inclusive range — the list has one entry per `i = 0 … de − ds`, entry `i`
being the template with the date placeholders substituted for day `ds + i` —
and for day 2023-03-05 the template `"{YYYY}/{MM}/{DD}_{DOY}_{MONTH}.dat"`
expands to `"2023/03/05_064_MAR.dat"`. -/
theorem C5_urls_build_one_url_per_day (fmt : String) (ds de : Int)
    (h : ds ≤ de) :
    urls_build fmt (86400 * ds) (86400 * de) none
        = .ok ((List.range (de - ds + 1).toNat).map
            (fun i : Nat => String.mk (buildDayUrl fmt.data (86400 * (ds + (i : Int)))))) ∧
    ((List.range (de - ds + 1).toNat).map
        (fun i : Nat => String.mk (buildDayUrl fmt.data (86400 * (ds + (i : Int)))))).length
      = (de - ds + 1).toNat ∧
    (((de - ds + 1).toNat : Int) = de - ds + 1) ∧
    urls_build "\x7bYYYY\x7d/\x7bMM\x7d/\x7bDD\x7d_\x7bDOY\x7d_\x7bMONTH\x7d.dat"
        (midnight 2023 3 5) (midnight 2023 3 5) none
      = .ok ["2023/03/05_064_MAR.dat"] := by
  refine ⟨?_, by simp, by omega, by decide⟩
  rw [urls_build_none_eq]
  have harg : 86400 * de - 86400 * ds = 86400 * (de - ds) := by ring
  rw [harg, Int.mul_fdiv_cancel_left (de - ds) (by norm_num)]
  congr 1
  apply List.map_congr_left
  intro i _
  congr 2
  ring

/-- Witness for C5 at the concrete one-day range 2023-03-05. -/
theorem C5_urls_build_one_url_per_day_witness :
    (daysFromCivil 2023 3 5 ≤ daysFromCivil 2023 3 5) ∧
    urls_build "\x7bYYYY\x7d/\x7bMM\x7d/\x7bDD\x7d_\x7bDOY\x7d_\x7bMONTH\x7d.dat"
        (midnight 2023 3 5) (midnight 2023 3 5) none
      = .ok ["2023/03/05_064_MAR.dat"] :=
  ⟨le_refl _,
   (C5_urls_build_one_url_per_day "x" (daysFromCivil 2023 3 5)
      (daysFromCivil 2023 3 5) (le_refl _)).2.2.2⟩

/-- C6: per day, `urls_build` substitutes the identifiers of the first version
descriptor whose half-open interval `[version_start, version_end)` contains
the day, and raises `RuntimeError` when no descriptor matches; with versions
`[2020-01-01, 2020-06-01) ↦ v1` and `[2020-06-01, 2021-01-01) ↦ v2` and
template `"file_{V0}.dat"`, a March 2020 day yields `"file_v1.dat"`, an August
2020 day yields `"file_v2.dat"`, and a 2021 day raises the error. -/
theorem C6_urls_build_versions (fmt : String) (t : Int) (vs : List Version) :
    (vs.find? (inVersion t) = none →
      urls_build fmt t t (some vs) = .error (.runtimeError "no version found")) ∧
    (∀ v, vs.find? (inVersion t) = some v →
      urls_build fmt t t (some vs)
        = .ok [String.mk (substIdentifiers (buildDayUrl fmt.data t) v.identifiers)]) ∧
    urls_build "file_\x7bV0\x7d.dat" (midnight 2020 3 15) (midnight 2020 3 15)
        (some [⟨midnight 2020 1 1, midnight 2020 6 1, ["v1"]⟩,
               ⟨midnight 2020 6 1, midnight 2021 1 1, ["v2"]⟩])
      = .ok ["file_v1.dat"] ∧
    urls_build "file_\x7bV0\x7d.dat" (midnight 2020 8 15) (midnight 2020 8 15)
        (some [⟨midnight 2020 1 1, midnight 2020 6 1, ["v1"]⟩,
               ⟨midnight 2020 6 1, midnight 2021 1 1, ["v2"]⟩])
      = .ok ["file_v2.dat"] ∧
    urls_build "file_\x7bV0\x7d.dat" (midnight 2021 3 1) (midnight 2021 3 1)
        (some [⟨midnight 2020 1 1, midnight 2020 6 1, ["v1"]⟩,
               ⟨midnight 2020 6 1, midnight 2021 1 1, ["v2"]⟩])
      = .error (.runtimeError "no version found") := by
  refine ⟨?_, ?_, by decide, by decide, by decide⟩
  · intro hfind
    rw [urls_build_single_day]
    simp [buildDayUrlVersioned, hfind, Except.map]
  · intro v hfind
    rw [urls_build_single_day]
    simp [buildDayUrlVersioned, hfind, Except.map]

/-- Witness for C6: the no-match branch applied at day 2021-03-01 with the two
2020 version descriptors. -/
theorem C6_urls_build_versions_witness :
    ([⟨midnight 2020 1 1, midnight 2020 6 1, ["v1"]⟩,
      (⟨midnight 2020 6 1, midnight 2021 1 1, ["v2"]⟩ : Version)].find?
        (inVersion (midnight 2021 3 1)) = none) ∧
    urls_build "file_\x7bV0\x7d.dat" (midnight 2021 3 1) (midnight 2021 3 1)
        (some [⟨midnight 2020 1 1, midnight 2020 6 1, ["v1"]⟩,
               ⟨midnight 2020 6 1, midnight 2021 1 1, ["v2"]⟩])
      = .error (.runtimeError "no version found") :=
  ⟨by decide,
   (C6_urls_build_versions "file_\x7bV0\x7d.dat" (midnight 2021 3 1)
      [⟨midnight 2020 1 1, midnight 2020 6 1, ["v1"]⟩,
       ⟨midnight 2020 6 1, midnight 2021 1 1, ["v2"]⟩]).1 (by decide)⟩

/-! ## Claim C8: leap-second repair in PDS3 string timestamps -/

/-- A number below `10 ^ k` prints in at most `k` digits. -/
theorem natCharsF_length_le (fuel : Nat) :
    ∀ n k : Nat, n < 10 ^ k → (natCharsF fuel n).length ≤ k := by
  induction fuel with
  | zero => intro n k _; simp [natCharsF]
  | succ fuel ih =>
      intro n k h
      by_cases hn : n = 0
      · simp [natCharsF, hn]
      · have hk : k ≠ 0 := by
          rintro rfl
          simp at h
          omega
        have h10 : n / 10 < 10 ^ (k - 1) := by
          have hpow : 10 ^ k = 10 ^ (k - 1) * 10 := by
            rw [← pow_succ]
            congr 1
            omega
          rw [Nat.div_lt_iff_lt_mul (by norm_num)]
          omega
        have := ih (n / 10) (k - 1) h10
        simp [natCharsF, hn]
        omega

/-- Digit-count bound for `natChars`. -/
theorem natChars_length_le (n k : Nat) (hk : 1 ≤ k) (h : n < 10 ^ k) :
    (natChars n).length ≤ k := by
  by_cases hn : n = 0
  · simp [natChars, hn]
    omega
  · simp [natChars, hn]
    exact natCharsF_length_le n n k h

/-- `str` of a natural number cast to `Int` is its natural rendering. -/
theorem intChars_ofNat (n : Nat) : intChars (n : Int) = natChars n := by
  simp [intChars]

/-- Zero-padding yields exactly the requested width whenever the plain
rendering fits. -/
theorem padZeroTo_length (w : Nat) (n : Int) (h : (intChars n).length ≤ w) :
    (padZeroTo w n).length = w := by
  simp [padZeroTo]
  omega

/-- The seconds suffix of `mkTs` sits after a pure prefix. -/
theorem mkTs_eq_append (y m d h mi : Nat) (ss : List Char) :
    mkTs y m d h mi ss = mkTs y m d h mi [] ++ ss := by
  simp [mkTs]

/-- With in-range fields, the `mkTs` prefix is exactly 17 characters:
`YYYY-MM-DDTHH:MI:`. -/
theorem mkTs_prefix_length (y m d h mi : Nat) (hy : y < 10000) (hm : m < 100)
    (hd : d < 100) (hh : h < 100) (hmi : mi < 100) :
    (mkTs y m d h mi []).length = 17 := by
  have l4 : (padZeroTo 4 (y : Int)).length = 4 := by
    apply padZeroTo_length
    rw [intChars_ofNat]
    exact natChars_length_le y 4 (by norm_num) (by omega)
  have l2m : (padZeroTo 2 (m : Int)).length = 2 := by
    apply padZeroTo_length
    rw [intChars_ofNat]
    exact natChars_length_le m 2 (by norm_num) (by omega)
  have l2d : (padZeroTo 2 (d : Int)).length = 2 := by
    apply padZeroTo_length
    rw [intChars_ofNat]
    exact natChars_length_le d 2 (by norm_num) (by omega)
  have l2h : (padZeroTo 2 (h : Int)).length = 2 := by
    apply padZeroTo_length
    rw [intChars_ofNat]
    exact natChars_length_le h 2 (by norm_num) (by omega)
  have l2mi : (padZeroTo 2 (mi : Int)).length = 2 := by
    apply padZeroTo_length
    rw [intChars_ofNat]
    exact natChars_length_le mi 2 (by norm_num) (by omega)
  simp [mkTs, l4, l2m, l2d, l2h, l2mi]

/-- A list always ends with its own appended suffix. -/
theorem endsWithL_append (a p : List Char) : endsWithL (a ++ p) p = true := by
  unfold endsWithL
  have hlen : (a ++ p).length - p.length = a.length := by
    simp
  rw [hlen, List.drop_left]
  simp

/-- Suffix test against an equal-length candidate compares the suffixes. -/
theorem endsWithL_append_of_length (a q p : List Char) (h : q.length = p.length) :
    endsWithL (a ++ q) p = (q == p) := by
  unfold endsWithL
  have hlen : (a ++ q).length - p.length = a.length := by
    simp
    omega
  rw [hlen, List.drop_left]

/-- C8: `decode_string` parses a string not ending in `"60.000"` directly with
the configured format; a string ending in `"60.000"` is repaired by keeping
its first 17 characters, appending `"59.000"`, parsing, and adding one second;
consequently a zero-padded timestamp with seconds field `"60.000"` decodes to
the decoding of the same timestamp with `"59.000"` plus one second. -/
theorem C8_leap_second_repair :
    (∀ s fmt : List Char, endsWithL s "60.000".data = false →
      decode_string s fmt = strptimeModel fmt s) ∧
    (∀ s fmt : List Char, endsWithL s "60.000".data = true →
      decode_string s fmt
        = (strptimeModel fmt (s.take 17 ++ "59.000".data)).map (· + 1000000)) ∧
    (∀ y m d h mi : Nat, y < 10000 → m < 100 → d < 100 → h < 100 → mi < 100 →
      ∀ fmt : List Char,
      decode_string (mkTs y m d h mi "60.000".data) fmt
        = (decode_string (mkTs y m d h mi "59.000".data) fmt).map (· + 1000000)) := by
  refine ⟨?_, ?_, ?_⟩
  · intro s fmt hends
    simp [decode_string, hends]
  · intro s fmt hends
    simp [decode_string, hends]
  · intro y m d h mi hy hm hd hh hmi fmt
    have hpre := mkTs_prefix_length y m d h mi hy hm hd hh hmi
    rw [mkTs_eq_append y m d h mi "60.000".data,
        mkTs_eq_append y m d h mi "59.000".data]
    have e60 : endsWithL (mkTs y m d h mi [] ++ "60.000".data) "60.000".data
        = true := endsWithL_append _ _
    have e59 : endsWithL (mkTs y m d h mi [] ++ "59.000".data) "60.000".data
        = false := by
      rw [endsWithL_append_of_length _ _ _ (by rfl)]
      decide
    have htake : (mkTs y m d h mi [] ++ "60.000".data).take 17
        = mkTs y m d h mi [] := by
      rw [← hpre]
      exact List.take_left ..
    simp [decode_string, e60, e59, htake]

/-- Witness for C8: the repair applied to `2015-06-30T23:59:60.000`, the
leap second of June 2015. -/
theorem C8_leap_second_repair_witness :
    (2015 < 10000 ∧ 6 < 100 ∧ 30 < 100 ∧ 23 < 100 ∧ 59 < 100) ∧
    decode_string (mkTs 2015 6 30 23 59 "60.000".data) defaultTimeFormat
      = (decode_string (mkTs 2015 6 30 23 59 "59.000".data) defaultTimeFormat).map
          (· + 1000000) :=
  ⟨by decide,
   C8_leap_second_repair.2.2 2015 6 30 23 59 (by decide) (by decide) (by decide)
     (by decide) (by decide) defaultTimeFormat⟩

/-! ## Claim C9: unknown mission error

The claim says an unknown mission key raises `NotImplementedError` on every
construction, including the very first one in the process.  The code only
raises `NotImplementedError` from the `else` branch, which is reachable only
when the registry is already loaded; the first construction indexes the freshly
loaded dictionary directly and therefore raises `KeyError`. -/

/-- C9: with the registry file `[("wind", 0)]` and the unknown key `"foo"`,
the first construction (global slot still `none`) raises `KeyError`, while a
later construction (slot loaded) raises `NotImplementedError`; the two
exceptions differ, contradicting the claim that the "not implemented" error is
raised on every construction. -/
theorem C9_unknown_mission_first_load_keyerror :
    spacecraft_init [("wind", (0 : Nat))] none "foo"
        = .error (.keyError "foo") ∧
    spacecraft_init [("wind", (0 : Nat))] (some [("wind", 0)]) "foo"
        = .error (.notImplementedError "foo") ∧
    (PyErr.keyError "foo") ≠ (PyErr.notImplementedError "foo") := by
  refine ⟨rfl, rfl, ?_⟩
  decide

/-! ## Claim C4: get_data_raw concatenation

The claim says the column count is taken from the first NON-EMPTY per-file
result.  The code takes `len(results[0][1][0])` from the first result
unconditionally; when the first per-file result is empty (`read_file` returns
`(np.array([]), np.array([]))` for an empty window), indexing its empty data
array raises `IndexError` instead of consulting the later non-empty result. -/

/-- C4 counterexample: with an empty first result and a non-empty second
result of two rows and two columns, the concatenation raises `IndexError`
rather than returning the two-row, two-column combination the claim
predicts. -/
theorem C4_first_result_empty_counterexample :
    get_data_raw_concat
        [(⟨[0], .f64, []⟩, ⟨[0], .f32, []⟩),
         (⟨[2], .f64, [10, 20]⟩, ⟨[2, 2], .f32, [1, 2, 3, 4]⟩)]
      = .error (.indexError "index 0 is out of bounds for axis 0 with size 0") ∧
    get_data_raw_concat
        [(⟨[0], .f64, []⟩, ⟨[0], .f32, []⟩),
         (⟨[2], .f64, [10, 20]⟩, ⟨[2, 2], .f32, [1, 2, 3, 4]⟩)]
      ≠ .ok (⟨[2], .f64, [10, 20]⟩, ⟨[2, 2], .f32, [1, 2, 3, 4]⟩) := by
  refine ⟨by decide, by decide⟩

/-- The per-file lengths are read off the time arrays. -/
theorem exceptMapM_npLen (rs : List (NpArr × NpArr))
    (h : ∀ r ∈ rs, ∃ l : Nat, r.1.shape = [l]) :
    exceptMapM (fun r => npLen r.1) rs
      = .ok (rs.map (fun r => r.1.shape.headD 0)) := by
  induction rs with
  | nil => rfl
  | cons r t ih =>
      obtain ⟨l, hl⟩ := h r (by simp)
      have ht := ih (fun q hq => h q (by simp [hq]))
      have hr : npLen r.1 = .ok l := by simp [npLen, hl]
      simp [exceptMapM, hr, ht, Except.map, hl]

/-- The per-file block assignments succeed and return each file's elements
when every result is a well-formed `read_file` output of the common width. -/
theorem exceptMapM_assign (c : Nat) (rs : List (NpArr × NpArr))
    (hall : ∀ r ∈ rs, ∃ l : Nat, r.1.shape = [l] ∧
      ((0 < l ∧ r.2.shape = [l, c]) ∨ (l = 1 ∧ r.2.shape = [c]) ∨
        (l = 0 ∧ r.1.elems = [] ∧ r.2.elems = []))) :
    exceptMapM
      (fun rl =>
        if 0 < rl.2 then do
          let ts ← assignTime rl.2 rl.1.1
          let ds ← assignRows rl.2 c rl.1.2
          pure (ts, ds)
        else pure (([] : List Int), ([] : List Int)))
      (rs.zip (rs.map (fun r => r.1.shape.headD 0)))
      = .ok (rs.map (fun r => (r.1.elems, r.2.elems))) := by
  induction rs with
  | nil => rfl
  | cons r t ih =>
      obtain ⟨l, hl, hcases⟩ := hall r (by simp)
      have ht := ih (fun q hq => hall q (by simp [hq]))
      simp only [List.zip, List.headD_eq_head?_getD, bind, Except.bind, pure, Except.pure] at ht
      have hl0 : r.1.shape.head?.getD 0 = l := by rw [hl]; rfl
      rcases hcases with ⟨hpos, hsh⟩ | ⟨h1, hsh⟩ | ⟨h0, he1, he2⟩
      · have hat : assignTime l r.1 = .ok r.1.elems := by
          simp [assignTime, hl]
        have har : assignRows l c r.2 = .ok r.2.elems := by
          simp [assignRows, hsh]
        simp [exceptMapM, hl0, hpos, hat, har, ht, Except.map, bind,
          Except.bind, pure, Except.pure]
      · subst h1
        have hat : assignTime 1 r.1 = .ok r.1.elems := by
          simp [assignTime, hl]
        have har : assignRows 1 c r.2 = .ok r.2.elems := by
          simp [assignRows, hsh]
        simp [exceptMapM, hl0, hat, har, ht, Except.map, bind,
          Except.bind, pure, Except.pure]
      · subst h0
        simp [exceptMapM, hl0, he1, he2, ht, Except.map, bind,
          Except.bind, pure, Except.pure]

set_option maxHeartbeats 1000000 in
/-- C4 (amended): when the first per-file result is non-empty — and every
per-file result is a well-formed worker output: a 1-D time array, with the
data block either a 2-D `(l, c)` block, a squeezed single row of width `c`,
or empty — the concatenation succeeds, preserves file-list order, and returns
a time array whose length is the sum of the per-file time lengths together
with a data array of the same row count whose column count is taken from the
FIRST per-file result. -/
theorem C4_concat_first_result_columns (r0 : NpArr × NpArr)
    (rest : List (NpArr × NpArr)) (l0 c : Nat)
    (h0 : r0.2.shape = [l0 + 1, c])
    (hall : ∀ r ∈ r0 :: rest, ∃ l : Nat, r.1.shape = [l] ∧
      ((0 < l ∧ r.2.shape = [l, c]) ∨ (l = 1 ∧ r.2.shape = [c]) ∨
        (l = 0 ∧ r.1.elems = [] ∧ r.2.elems = []))) :
    get_data_raw_concat (r0 :: rest)
      = .ok (⟨[((r0 :: rest).map (fun r => r.1.shape.headD 0)).sum], .f64,
              ((r0 :: rest).map (fun r => r.1.elems)).flatten⟩,
             ⟨[((r0 :: rest).map (fun r => r.1.shape.headD 0)).sum, c], .f32,
              ((r0 :: rest).map (fun r => r.2.elems)).flatten⟩) := by
  have hlen := exceptMapM_npLen (r0 :: rest)
    (fun r hr => (hall r hr).imp (fun l hl => hl.1))
  have hcol : firstRowLen r0.2 = .ok c := by
    simp [firstRowLen, h0]
  have hassign := exceptMapM_assign c (r0 :: rest) hall
  simp only [bind, Except.bind, pure, Except.pure] at hassign
  simp only [get_data_raw_concat, bind, Except.bind, pure, Except.pure,
    hlen, hcol, hassign]
  simp only [List.map_map]
  have hm1 : List.map (Prod.fst ∘ fun r : NpArr × NpArr => (r.1.elems, r.2.elems))
      (r0 :: rest) = List.map (fun r => r.1.elems) (r0 :: rest) :=
    List.map_congr_left (fun r _ => rfl)
  have hm2 : List.map (Prod.snd ∘ fun r : NpArr × NpArr => (r.1.elems, r.2.elems))
      (r0 :: rest) = List.map (fun r => r.2.elems) (r0 :: rest) :=
    List.map_congr_left (fun r _ => rfl)
  rw [hm1, hm2]

/-- Witness for C4 (amended) at a three-file input: a two-row file, an empty
file, and a squeezed single-row file. -/
theorem C4_concat_first_result_columns_witness :
    get_data_raw_concat
        [(⟨[2], .f64, [1, 2]⟩, ⟨[2, 3], .f32, [1, 2, 3, 4, 5, 6]⟩),
         (⟨[0], .f64, []⟩, ⟨[0], .f32, []⟩),
         (⟨[1], .f64, [9]⟩, ⟨[3], .f32, [7, 8, 9]⟩)]
      = .ok (⟨[3], .f64, [1, 2, 9]⟩,
             ⟨[3, 3], .f32, [1, 2, 3, 4, 5, 6, 7, 8, 9]⟩) := by
  have h := C4_concat_first_result_columns
    (⟨[2], .f64, [1, 2]⟩, ⟨[2, 3], .f32, [1, 2, 3, 4, 5, 6]⟩)
    [(⟨[0], .f64, []⟩, ⟨[0], .f32, []⟩),
     (⟨[1], .f64, [9]⟩, ⟨[3], .f32, [7, 8, 9]⟩)] 1 3 rfl
    (by
      intro r hr
      simp at hr
      rcases hr with rfl | rfl | rfl
      · exact ⟨2, rfl, Or.inl ⟨by norm_num, rfl⟩⟩
      · exact ⟨0, rfl, Or.inr (Or.inr ⟨rfl, rfl, rfl⟩)⟩
      · exact ⟨1, rfl, Or.inr (Or.inl ⟨rfl, rfl⟩)⟩)
  simpa using h

/-! ## Claims C7 and C10: read_file window filtering

The code selects the CONTIGUOUS index span from the first to the last
in-window row (`slice(mask[0], mask[-1] + 1)`), which equals the set of
in-window rows exactly when the file's time column is sorted; an unsorted
column leaks out-of-window rows into the result (C7 counterexample).  The
squeeze of a single-row selection collapses the data to one dimension only
when it has at least two channels; a single-channel single-row selection
collapses to zero dimensions (C10 counterexample). -/

/-- Every member of a strictly sorted list is bounded by its last element. -/
theorem mem_le_getLast {l : List Nat} (hs : l.Pairwise (· < ·)) (hne : l ≠ []) :
    ∀ a ∈ l, a ≤ l.getLast hne := by
  induction l with
  | nil => simp
  | cons x t ih =>
      intro a ha
      rcases List.mem_cons.mp ha with rfl | hat
      · cases t with
        | nil => simp [List.getLast]
        | cons y u =>
            have hx : a < (y :: u : List Nat).getLast (by simp) :=
              List.rel_of_pairwise_cons hs (List.getLast_mem (by simp))
            rw [List.getLast_cons (by simp)]
            exact le_of_lt hx
      · have ht : t ≠ [] := by
          intro h
          rw [h] at hat
          simp at hat
        rw [List.getLast_cons ht]
        exact ih (List.Pairwise.of_cons hs) ht a hat

/-- Core contiguity fact: when the time column is sorted, the code's
contiguous slice from the first to the last in-window index selects exactly
the rows whose time lies strictly inside the window.  Stated for an arbitrary
parallel column list `l` of the same length. -/
theorem sliceRows_eq_filter {α : Type} (time : List Int) (l : List α)
    (rs re : Int) (hsort : time.Pairwise (· ≤ ·)) (hlen : l.length = time.length)
    (i0 : Nat) (rest : List Nat)
    (heq : (List.range time.length).filter
        (fun i => decide (rs < time.getD i 0 ∧ time.getD i 0 < re)) = i0 :: rest) :
    sliceRows l i0 ((i0 :: rest).getLast (by simp))
      = ((time.zip l).filter (fun p => decide (rs < p.1 ∧ p.1 < re))).map Prod.snd := by
  have hmem : ∀ i : Nat, (i ∈ i0 :: rest)
      ↔ (i < time.length ∧ (rs < time.getD i 0 ∧ time.getD i 0 < re)) := by
    intro i
    rw [← heq]
    simp [List.mem_filter, List.mem_range]
  have hsm : (i0 :: rest).Pairwise (· < ·) := by
    rw [← heq]
    exact (List.pairwise_lt_range time.length).filter _
  have hne : (i0 :: rest : List Nat) ≠ [] := by simp
  have hub : ∀ a ∈ i0 :: rest, a ≤ (i0 :: rest).getLast hne :=
    mem_le_getLast hsm hne
  have hlb : ∀ a ∈ i0 :: rest, i0 ≤ a := by
    intro a ha
    rcases List.mem_cons.mp ha with rfl | ham
    · exact le_refl _
    · exact le_of_lt (List.rel_of_pairwise_cons hsm ham)
  set hi := (i0 :: rest).getLast hne with hhi
  have hi_mem : hi ∈ i0 :: rest := List.getLast_mem hne
  have hi0_mem : i0 ∈ (i0 :: rest : List Nat) := by simp
  have hi_lt : hi < time.length := ((hmem hi).mp hi_mem).1
  have hi0_le : i0 ≤ hi := hub i0 hi0_mem
  have hmono : ∀ i j : Nat, i ≤ j → j < time.length →
      time.getD i 0 ≤ time.getD j 0 := by
    intro i j hij hj
    rcases eq_or_lt_of_le hij with rfl | hlt
    · exact le_refl _
    · have hi2 : i < time.length := lt_trans hlt hj
      have hg := List.pairwise_iff_get.mp hsort ⟨i, hi2⟩ ⟨j, hj⟩ hlt
      rw [List.getD_eq_get time 0 hi2, List.getD_eq_get time 0 hj]
      exact hg
  have hP : ∀ j : Nat, i0 ≤ j → j ≤ hi →
      (rs < time.getD j 0 ∧ time.getD j 0 < re) := by
    intro j h1 h2
    have hP0 := ((hmem i0).mp hi0_mem).2
    have hPh := ((hmem hi).mp hi_mem).2
    have hjn : j < time.length := lt_of_le_of_lt h2 hi_lt
    exact ⟨lt_of_lt_of_le hP0.1 (hmono i0 j h1 hjn),
           lt_of_le_of_lt (hmono j hi h2 hi_lt) hPh.2⟩
  have hNP : ∀ j : Nat, j < time.length → (j < i0 ∨ hi < j) →
      ¬(rs < time.getD j 0 ∧ time.getD j 0 < re) := by
    intro j hj hout hcon
    have hjm : j ∈ i0 :: rest := (hmem j).mpr ⟨hj, hcon⟩
    rcases hout with h | h
    · exact absurd (hlb j hjm) (by omega)
    · exact absurd (hub j hjm) (by omega)
  have hzlen : (time.zip l).length = time.length := by
    rw [List.length_zip, hlen, min_self]
  have hzfst : ∀ (j : Nat) (hjz : j < (time.zip l).length),
      (time.zip l)[j].1 = time.getD j 0 := by
    intro j hjz
    have hjt : j < time.length := by rw [← hzlen]; exact hjz
    rw [List.getD_eq_getElem time 0 hjt, List.getElem_zip]
  have hfA : ((time.zip l).take i0).filter
      (fun p => decide (rs < p.1 ∧ p.1 < re)) = [] := by
    apply List.filter_eq_nil_iff.mpr
    intro x hx
    obtain ⟨j, hjl, hget⟩ := List.mem_iff_getElem.mp hx
    have hjb : j < i0 ∧ j < (time.zip l).length := by
      have := hjl
      simp [List.length_take] at this
      omega
    have hx1 : x.1 = time.getD j 0 := by
      rw [← hget, List.getElem_take]
      exact hzfst j hjb.2
    simp only [hx1, decide_eq_true_eq]
    exact hNP j (by rw [← hzlen]; exact hjb.2) (Or.inl hjb.1)
  have hfC : (((time.zip l)).drop (hi + 1)).filter
      (fun p => decide (rs < p.1 ∧ p.1 < re)) = [] := by
    apply List.filter_eq_nil_iff.mpr
    intro x hx
    obtain ⟨j, hjl, hget⟩ := List.mem_iff_getElem.mp hx
    have hjb : hi + 1 + j < (time.zip l).length := by
      have := hjl
      simp [List.length_drop] at this
      omega
    have hx1 : x.1 = time.getD (hi + 1 + j) 0 := by
      rw [← hget, List.getElem_drop]
      exact hzfst (hi + 1 + j) hjb
    simp only [hx1, decide_eq_true_eq]
    exact hNP (hi + 1 + j) (by rw [← hzlen]; exact hjb) (Or.inr (by omega))
  have hfB : (((time.zip l).drop i0).take (hi + 1 - i0)).filter
      (fun p => decide (rs < p.1 ∧ p.1 < re))
      = ((time.zip l).drop i0).take (hi + 1 - i0) := by
    apply List.filter_eq_self.mpr
    intro x hx
    obtain ⟨j, hjl, hget⟩ := List.mem_iff_getElem.mp hx
    have hjb : j < hi + 1 - i0 ∧ i0 + j < (time.zip l).length := by
      have := hjl
      simp [List.length_take, List.length_drop] at this
      omega
    have hx1 : x.1 = time.getD (i0 + j) 0 := by
      rw [← hget, List.getElem_take, List.getElem_drop]
      exact hzfst (i0 + j) hjb.2
    simp only [hx1, decide_eq_true_eq]
    exact hP (i0 + j) (by omega) (by omega)
  have h3 : ((time.zip l).drop i0).drop (hi + 1 - i0) = (time.zip l).drop (hi + 1) := by
    rw [List.drop_drop]
    congr 1
    omega
  have hsplit : time.zip l
      = (time.zip l).take i0
        ++ (((time.zip l).drop i0).take (hi + 1 - i0) ++ (time.zip l).drop (hi + 1)) := by
    conv =>
      left
      rw [← List.take_append_drop i0 (time.zip l)]
    congr 1
    conv =>
      left
      rw [← List.take_append_drop (hi + 1 - i0) ((time.zip l).drop i0)]
    rw [h3]
  have hfilter : (time.zip l).filter (fun p => decide (rs < p.1 ∧ p.1 < re))
      = ((time.zip l).drop i0).take (hi + 1 - i0) := by
    conv =>
      left
      rw [hsplit]
    rw [List.filter_append, List.filter_append, hfA, hfB, hfC]
    simp
  rw [hfilter]
  show sliceRows l i0 hi = (((time.zip l).drop i0).take (hi + 1 - i0)).map Prod.snd
  rw [List.map_take, List.map_drop]
  have hmsnd : (time.zip l).map Prod.snd = l :=
    List.map_snd_zip time l (le_of_eq hlen)
  rw [hmsnd]
  rfl

/-- With a sorted time column, the code's slice of the time array itself is
the in-window filter of the time values. -/
theorem sliceRows_time_eq_filter (time : List Int) (rs re : Int)
    (hsort : time.Pairwise (· ≤ ·)) (i0 : Nat) (rest : List Nat)
    (heq : (List.range time.length).filter
        (fun i => decide (rs < time.getD i 0 ∧ time.getD i 0 < re)) = i0 :: rest) :
    sliceRows time i0 ((i0 :: rest).getLast (by simp))
      = time.filter (fun t => decide (rs < t ∧ t < re)) := by
  have h := sliceRows_eq_filter time time rs re hsort rfl i0 rest heq
  rw [h]
  have hzip : time.zip time = time.map (fun t => (t, t)) := by
    have := List.zip_map' (id : Int → Int) (id : Int → Int) time
    simpa using this
  rw [hzip, List.filter_map, List.map_map]
  have : (Prod.snd ∘ fun t : Int => (t, t)) = id := by
    funext t
    rfl
  rw [this, List.map_id]
  congr 1

/-- An empty index mask means no time value lies in the open window. -/
theorem mask_nil_no_window (time : List Int) (rs re : Int)
    (heq : (List.range time.length).filter
        (fun i => decide (rs < time.getD i 0 ∧ time.getD i 0 < re)) = []) :
    ∀ t ∈ time, ¬(rs < t ∧ t < re) := by
  intro t ht hcon
  obtain ⟨⟨j, hj⟩, hget⟩ := List.mem_iff_get.mp ht
  have hd : time.getD j 0 = t := by
    rw [List.getD_eq_get time 0 hj]
    exact hget
  have hjm : j ∈ (List.range time.length).filter
      (fun i => decide (rs < time.getD i 0 ∧ time.getD i 0 < re)) := by
    simp only [List.mem_filter, List.mem_range, decide_eq_true_eq]
    exact ⟨hj, by rw [hd]; exact hcon⟩
  rw [heq] at hjm
  simp at hjm


/-- Shared fact: when no row's time is strictly inside the window, the mask is
empty and `read_file` returns the empty 1-D float64/float32 pair, for any
value filter. -/
theorem read_file_window_no_match (time : List Int)
    (blocks : List (List (List Int))) (rs re : Int) (values : Option (Int × Int))
    (h : ∀ t ∈ time, ¬(rs < t ∧ t < re)) :
    read_file_window time blocks rs re values
      = .ok (⟨[0], .f64, []⟩, ⟨[0], .f32, []⟩) := by
  unfold read_file_window
  split
  · rfl
  · rename_i i0 rest heq
    exfalso
    have hi0 : i0 ∈ (List.range time.length).filter
        (fun i => decide (rs < time.getD i 0 ∧ time.getD i 0 < re)) := by
      rw [heq]
      simp
    simp only [List.mem_filter, List.mem_range, decide_eq_true_eq] at hi0
    have htm : time.getD i0 0 ∈ time := by
      rw [List.getD_eq_getElem time 0 hi0.1]
      exact List.getElem_mem hi0.1
    exact h _ htm hi0.2

/-- C7 counterexample: with the non-monotonic time column `[1, 5, 100, 6, 9]`
and window `(0, 10)`, `read_file` returns ALL five rows — including the row
with time `100`, which does not lie strictly between the bounds — because the
code slices the contiguous span between the first and last matching index. -/
theorem C7_unsorted_time_counterexample :
    read_file_window [1, 5, 100, 6, 9] [[[10], [20], [30], [40], [50]]] 0 10 none
      = .ok (⟨[5], .f64, [1, 5, 100, 6, 9]⟩, ⟨[5], .f32, [10, 20, 30, 40, 50]⟩) ∧
    ¬((0 : Int) < 100 ∧ (100 : Int) < 10) := by
  exact ⟨by decide, by decide⟩

/-- C7 (amended): `read_file` returns the contiguous block of rows between
the first and the last row whose time lies strictly inside the open window,
which equals exactly the strictly-in-window rows whenever the time column is
sorted; with a sorted column it therefore (1) returns the empty pair when no
row is in the window, (2) without a value filter returns precisely the
in-window rows, and (3) with a `[min, max]` value filter — applicable when
the selected block stays two-dimensional, i.e. at least two rows and two
channels — further keeps exactly the rows whose first value channel lies
strictly within `(min, max)`.  The per-column blocks are horizontally
stacked; the statement instantiates the stacked block. -/
theorem C7_window_filtering :
    (∀ (time : List Int) (blocks : List (List (List Int))) (rs re : Int)
        (values : Option (Int × Int)),
      (∀ t ∈ time, ¬(rs < t ∧ t < re)) →
      read_file_window time blocks rs re values
        = .ok (⟨[0], .f64, []⟩, ⟨[0], .f32, []⟩)) ∧
    (∀ (time : List Int) (rows : List (List Int)) (rs re : Int) (c : Nat)
        (zf : List (Int × List Int)),
      time.Pairwise (· ≤ ·) → rows.length = time.length →
      (∀ r ∈ rows, r.length = c) →
      zf = (time.zip rows).filter (fun p => decide (rs < p.1 ∧ p.1 < re)) →
      zf ≠ [] →
      read_file_window time [rows] rs re none
        = .ok (⟨npsqueeze [zf.length], .f64, zf.map Prod.fst⟩,
               ⟨npsqueeze [zf.length, c], .f32, (zf.map Prod.snd).flatten⟩)) ∧
    (∀ (time : List Int) (rows : List (List Int)) (rs re a b : Int) (c : Nat)
        (zf kf : List (Int × List Int)),
      time.Pairwise (· ≤ ·) → rows.length = time.length →
      (∀ r ∈ rows, r.length = c) →
      zf = (time.zip rows).filter (fun p => decide (rs < p.1 ∧ p.1 < re)) →
      kf = zf.filter (fun p => decide (a < p.2.headD 0 ∧ p.2.headD 0 < b)) →
      2 ≤ zf.length → 2 ≤ c →
      read_file_window time [rows] rs re (some (a, b))
        = .ok (⟨[kf.length], .f64, kf.map Prod.fst⟩,
               ⟨[kf.length, c], .f32, (kf.map Prod.snd).flatten⟩)) := by
  refine ⟨read_file_window_no_match, ?_, ?_⟩
  · intro time rows rs re c zf hsort hlen hw hzf hne
    unfold read_file_window
    split
    · rename_i heq
      exfalso
      apply hne
      rw [hzf]
      apply List.filter_eq_nil_iff.mpr
      intro p hp
      have hp1 : p.1 ∈ time := (List.of_mem_zip hp).1
      have hnw := mask_nil_no_window time rs re heq p.1 hp1
      simp only [decide_eq_true_eq]
      exact hnw
    · rename_i i0 rest heq
      have hts := sliceRows_time_eq_filter time rs re hsort i0 rest heq
      have hrs := sliceRows_eq_filter time rows rs re hsort hlen i0 rest heq
      have htf : time.filter (fun t => decide (rs < t ∧ t < re)) = zf.map Prod.fst := by
        rw [hzf]
        have h1 : time = (time.zip rows).map Prod.fst :=
          (List.map_fst_zip time rows (le_of_eq hlen.symm)).symm
        conv =>
          left
          rw [h1]
        rw [List.filter_map]
        rfl
      have hrows : hstackRows ([rows].map (fun bl => sliceRows bl i0
          ((i0 :: rest).getLast (by simp)))) = zf.map Prod.snd := by
        simp only [List.map_cons, List.map_nil, hstackRows, List.foldl_nil]
        rw [hrs, hzf]
      have hwidth : rowWidth (zf.map Prod.snd) = c := by
        cases hzc : zf with
        | nil => exact absurd hzc hne
        | cons p t =>
            have hp : p ∈ zf := by rw [hzc]; simp
            have hpz : p ∈ (time.zip rows).filter
                (fun p => decide (rs < p.1 ∧ p.1 < re)) := by rw [← hzf]; exact hp
            have hp2 : p.2 ∈ rows := (List.of_mem_zip (List.mem_of_mem_filter hpz)).2
            simp [rowWidth, hzc, hw p.2 hp2]
      simp only [mkTimeArr, mkDataArr]
      rw [hts, htf, hrows, hwidth]
      simp [npsqueeze]
  · intro time rows rs re a b c zf kf hsort hlen hw hzf hkf h2 hc2
    have hne : zf ≠ [] := by
      intro h
      rw [h] at h2
      simp at h2
    unfold read_file_window
    split
    · rename_i heq
      exfalso
      apply hne
      rw [hzf]
      apply List.filter_eq_nil_iff.mpr
      intro p hp
      have hp1 : p.1 ∈ time := (List.of_mem_zip hp).1
      have hnw := mask_nil_no_window time rs re heq p.1 hp1
      simp only [decide_eq_true_eq]
      exact hnw
    · rename_i i0 rest heq
      have hts := sliceRows_time_eq_filter time rs re hsort i0 rest heq
      have hrs := sliceRows_eq_filter time rows rs re hsort hlen i0 rest heq
      have htf : time.filter (fun t => decide (rs < t ∧ t < re)) = zf.map Prod.fst := by
        rw [hzf]
        have h1 : time = (time.zip rows).map Prod.fst :=
          (List.map_fst_zip time rows (le_of_eq hlen.symm)).symm
        conv =>
          left
          rw [h1]
        rw [List.filter_map]
        rfl
      have hrows : hstackRows ([rows].map (fun bl => sliceRows bl i0
          ((i0 :: rest).getLast (by simp)))) = zf.map Prod.snd := by
        simp only [List.map_cons, List.map_nil, hstackRows, List.foldl_nil]
        rw [hrs, hzf]
      have hwidth : rowWidth (zf.map Prod.snd) = c := by
        cases hzc : zf with
        | nil => exact absurd hzc hne
        | cons p t =>
            have hp : p ∈ zf := by rw [hzc]; simp
            have hpz : p ∈ (time.zip rows).filter
                (fun p => decide (rs < p.1 ∧ p.1 < re)) := by rw [← hzf]; exact hp
            have hp2 : p.2 ∈ rows := (List.of_mem_zip (List.mem_of_mem_filter hpz)).2
            simp [rowWidth, hzc, hw p.2 hp2]
      have hk1 : zf.length ≠ 1 := by omega
      have hc1 : c ≠ 1 := by omega
      have hsq : npsqueeze [(zf.map Prod.snd).length, rowWidth (zf.map Prod.snd)]
          = [zf.length, c] := by
        rw [hwidth]
        simp [npsqueeze, hk1, hc1]
      simp only [mkTimeArr, mkDataArr]
      rw [hts, htf, hrows, hsq]
      have hzipmap : (zf.map Prod.fst).zip (zf.map Prod.snd) = zf := by
        rw [List.zip_map' Prod.fst Prod.snd zf]
        simp
      simp only [hzipmap]
      rw [← hkf]
      simp [hwidth]

/-- Witness for C7 (amended): the sorted column `[1, 5, 20]` with window
`(0, 10)` keeps exactly the rows at times 1 and 5. -/
theorem C7_window_filtering_witness :
    read_file_window [1, 5, 20] [[[7], [8], [9]]] 0 10 none
      = .ok (⟨[2], .f64, [1, 5]⟩, ⟨[2], .f32, [7, 8]⟩) := by
  have h := C7_window_filtering.2.1 [1, 5, 20] [[7], [8], [9]] 0 10 1
    [(1, [7]), (5, [8])] (by decide) (by decide)
    (by intro r hr; fin_cases hr <;> rfl) (by decide) (by decide)
  simpa using h

/-- C10 counterexample: a single matching row with a single channel is
squeezed to a ZERO-dimensional data array (shape `[]`), not the
one-dimensional array the claim describes; the time array also collapses to
zero dimensions. -/
theorem C10_single_channel_counterexample :
    read_file_window [5] [[[7]]] 0 10 none
      = .ok (⟨[], .f64, [5]⟩, ⟨[], .f32, [7]⟩) ∧
    ([] : List Nat).length ≠ 1 := by
  exact ⟨by decide, by decide⟩

/-- C10 (amended): an empty window yields a zero-length ONE-dimensional
float64 time array and float32 data array (shape `[0]` — the configured
column count is not reflected); a single matching row (absent a value
filter) is squeezed: the data collapses to one dimension `[c]` when it has
`c ≥ 2` channels but to zero dimensions when it has exactly one channel,
and the time array collapses to zero dimensions in both cases. -/
theorem C10_empty_shape_and_squeeze :
    (∀ (time : List Int) (blocks : List (List (List Int))) (rs re : Int)
        (values : Option (Int × Int)),
      (∀ t ∈ time, ¬(rs < t ∧ t < re)) →
      read_file_window time blocks rs re values
        = .ok (⟨[0], .f64, []⟩, ⟨[0], .f32, []⟩)) ∧
    (∀ (t : Int) (row : List Int) (rs re : Int),
      rs < t → t < re → 2 ≤ row.length →
      read_file_window [t] [[row]] rs re none
        = .ok (⟨[], .f64, [t]⟩, ⟨[row.length], .f32, row⟩)) ∧
    (∀ (t v rs re : Int),
      rs < t → t < re →
      read_file_window [t] [[[v]]] rs re none
        = .ok (⟨[], .f64, [t]⟩, ⟨[], .f32, [v]⟩)) := by
  refine ⟨read_file_window_no_match, ?_, ?_⟩
  · intro t row rs re h1 h2 hlen
    have hmask : (List.range ([t] : List Int).length).filter
        (fun i => decide (rs < ([t] : List Int).getD i 0 ∧ ([t] : List Int).getD i 0 < re))
        = [0] := by
      simp [List.range_succ, List.filter, h1, h2]
    unfold read_file_window
    split
    · rename_i heq
      rw [hmask] at heq
      simp at heq
    · rename_i i0 rest heq
      rw [hmask] at heq
      obtain ⟨rfl, rfl⟩ : i0 = 0 ∧ rest = [] := by
        constructor <;> [exact (List.cons.injEq .. ▸ heq).1.symm;
          exact (List.cons.injEq .. ▸ heq).2.symm]
      have hne1 : row.length ≠ 1 := by omega
      simp [sliceRows, hstackRows, mkTimeArr, mkDataArr, rowWidth, npsqueeze, hne1]
  · intro t v rs re h1 h2
    have hmask : (List.range ([t] : List Int).length).filter
        (fun i => decide (rs < ([t] : List Int).getD i 0 ∧ ([t] : List Int).getD i 0 < re))
        = [0] := by
      simp [List.range_succ, List.filter, h1, h2]
    unfold read_file_window
    split
    · rename_i heq
      rw [hmask] at heq
      simp at heq
    · rename_i i0 rest heq
      rw [hmask] at heq
      obtain ⟨rfl, rfl⟩ : i0 = 0 ∧ rest = [] := by
        constructor <;> [exact (List.cons.injEq .. ▸ heq).1.symm;
          exact (List.cons.injEq .. ▸ heq).2.symm]
      simp [sliceRows, hstackRows, mkTimeArr, mkDataArr, rowWidth, npsqueeze]

/-- Witness for C10 (amended) at a single two-channel row and at the empty
window. -/
theorem C10_empty_shape_and_squeeze_witness :
    read_file_window [5] [[[7, 8]]] 0 10 none
      = .ok (⟨[], .f64, [5]⟩, ⟨[2], .f32, [7, 8]⟩) ∧
    read_file_window [20] [[[7]]] 0 10 (some (0, 3))
      = .ok (⟨[0], .f64, []⟩, ⟨[0], .f32, []⟩) := by
  constructor
  · have h := C10_empty_shape_and_squeeze.2.1 5 [7, 8] 0 10
      (by norm_num) (by norm_num) (by norm_num)
    simpa using h
  · exact C10_empty_shape_and_squeeze.1 [20] [[[7]]] 0 10 (some (0, 3))
      (by intro u hu; simp at hu; omega)

/-! ## Claims C2 and C3: cache-key derivation

Supporting lemmas: the code-point order is a linear order; insertion sort by
key permutes its input, sorts it, and is the identity on sorted input; and a
sorted association list with distinct keys is determined by its multiset of
entries. -/

/-- `Char.ofNat` of a valid scalar value evaluates back to it. -/
theorem toNat_ofNat_valid (n : Nat) (h : n < 55296 ∨ (57343 < n ∧ n < 1114112)) :
    (Char.ofNat n).toNat = n := by
  have hv : n.isValidChar := by
    rcases h with h | h
    · exact Or.inl (by omega)
    · exact Or.inr (by omega)
  rw [Char.ofNat, dif_pos hv]
  rfl

/-- Characters with equal code points are equal. -/
theorem char_toNat_inj {c1 c2 : Char} (h : c1.toNat = c2.toNat) : c1 = c2 := by
  have := congrArg Char.ofNat h
  rwa [Char.ofNat_toNat, Char.ofNat_toNat] at this

/-- The code-point order is asymmetric. -/
theorem lexLt_asymm : ∀ a b : List Char, lexLt a b = true → lexLt b a = false := by
  intro a
  induction a with
  | nil => intro b _; cases b <;> simp [lexLt]
  | cons x t ih =>
      intro b hab
      cases b with
      | nil => simp [lexLt] at hab
      | cons y u =>
          simp only [lexLt] at hab ⊢
          by_cases h1 : x.toNat < y.toNat
          · have h2 : ¬ y.toNat < x.toNat := by omega
            rw [if_neg h2, if_pos h1]
          · by_cases h2 : y.toNat < x.toNat
            · rw [if_neg h1, if_pos h2] at hab
              cases hab
            · rw [if_neg h1, if_neg h2] at hab
              rw [if_neg h2, if_neg h1]
              exact ih u hab

/-- The code-point order is trichotomous. -/
theorem lexLt_trichotomy : ∀ a b : List Char,
    lexLt a b = true ∨ lexLt b a = true ∨ a = b := by
  intro a
  induction a with
  | nil => intro b; cases b <;> simp [lexLt]
  | cons x t ih =>
      intro b
      cases b with
      | nil => simp [lexLt]
      | cons y u =>
          by_cases h1 : x.toNat < y.toNat
          · left
            simp [lexLt, h1]
          · by_cases h2 : y.toNat < x.toNat
            · right; left
              simp [lexLt, h2]
            · have hxy : x = y := char_toNat_inj (by omega)
              subst hxy
              rcases ih u with h | h | h
              · left
                simp [lexLt, h]
              · right; left
                simp [lexLt, h]
              · right; right
                rw [h]

/-- The non-strict key order is total. -/
theorem keyLE_total (a b : String) : keyLE a b = true ∨ keyLE b a = true := by
  unfold keyLE
  rcases lexLt_trichotomy a.data b.data with h | h | h
  · left
    simp [lexLt_asymm _ _ h]
  · right
    simp [lexLt_asymm _ _ h]
  · left
    have : a = b := by
      cases a
      cases b
      exact congrArg String.mk h
    subst this
    rcases lexLt_trichotomy a.data a.data with h2 | h2 | _
    · simp [lexLt_asymm _ _ h2]
    · simp [lexLt_asymm _ _ h2]
    · cases hl : lexLt a.data a.data
      · simp
      · have := lexLt_asymm _ _ hl
        rw [this] at hl
        cases hl

/-- The non-strict key order is antisymmetric. -/
theorem keyLE_antisymm {a b : String} (h1 : keyLE a b = true)
    (h2 : keyLE b a = true) : a = b := by
  unfold keyLE at h1 h2
  rcases lexLt_trichotomy a.data b.data with h | h | h
  · rw [h] at h2
    simp at h2
  · rw [h] at h1
    simp at h1
  · cases a
    cases b
    exact congrArg String.mk h

/-- The non-strict key order is transitive. -/
theorem lexLt_trans : ∀ a b c : List Char,
    lexLt a b = true → lexLt b c = true → lexLt a c = true := by
  intro a
  induction a with
  | nil =>
      intro b c hab hbc
      cases b with
      | nil => simp [lexLt] at hab
      | cons y u =>
          cases c with
          | nil => simp [lexLt] at hbc
          | cons z w => simp [lexLt]
  | cons x t ih =>
      intro b c hab hbc
      cases b with
      | nil => simp [lexLt] at hab
      | cons y u =>
          cases c with
          | nil => simp [lexLt] at hbc
          | cons z w =>
              simp only [lexLt] at hab hbc ⊢
              by_cases hxy : x.toNat < y.toNat
              · by_cases hyz : y.toNat < z.toNat
                · have hxz : x.toNat < z.toNat := by omega
                  rw [if_pos hxz]
                · by_cases hzy : z.toNat < y.toNat
                  · rw [if_neg hyz, if_pos hzy] at hbc
                    cases hbc
                  · have hxz : x.toNat < z.toNat := by omega
                    rw [if_pos hxz]
              · by_cases hyx : y.toNat < x.toNat
                · rw [if_neg hxy, if_pos hyx] at hab
                  cases hab
                · rw [if_neg hxy, if_neg hyx] at hab
                  by_cases hyz : y.toNat < z.toNat
                  · have hxz : x.toNat < z.toNat := by omega
                    rw [if_pos hxz]
                  · by_cases hzy : z.toNat < y.toNat
                    · rw [if_neg hyz, if_pos hzy] at hbc
                      cases hbc
                    · rw [if_neg hyz, if_neg hzy] at hbc
                      have hxz : ¬ x.toNat < z.toNat := by omega
                      have hzx : ¬ z.toNat < x.toNat := by omega
                      rw [if_neg hxz, if_neg hzx]
                      exact ih u w hab hbc

/-- Transitivity for the pairwise key relation used on sorted field lists. -/
theorem keyLE_trans {a b c : String} (h1 : keyLE a b = true)
    (h2 : keyLE b c = true) : keyLE a c = true := by
  unfold keyLE at h1 h2 ⊢
  simp only [Bool.not_eq_true'] at h1 h2 ⊢
  by_contra hca
  simp only [Bool.not_eq_false] at hca
  rcases lexLt_trichotomy a.data b.data with hab | hab | hab
  · rcases lexLt_trichotomy b.data c.data with hbc | hbc | hbc
    · have := lexLt_trans _ _ _ hbc (lexLt_trans _ _ _ hca hab)
      rw [lexLt_asymm _ _ hbc] at h2
      have h3 := lexLt_trans _ _ _ hca hab
      rw [lexLt_asymm _ _ h3] at hbc
      cases hbc
    · rw [hbc] at h2
      cases h2
    · rw [← hbc] at hca
      rw [hca] at h1
      cases h1
  · rw [hab] at h1
    cases h1
  · rw [← hab] at h2
    rw [hca] at h2
    cases h2

/-- `insertPair` permutes a cons. -/
theorem insertPair_perm (p : String × JVal) (l : List (String × JVal)) :
    (insertPair p l).Perm (p :: l) := by
  induction l with
  | nil => exact List.Perm.refl _
  | cons q t ih =>
      unfold insertPair
      by_cases h : keyLE p.1 q.1
      · simp [h]
      · simp only [h, if_false]
        exact (ih.cons q).trans (List.Perm.swap p q t)

/-- `sortPairs` permutes its input. -/
theorem sortPairs_perm (l : List (String × JVal)) : (sortPairs l).Perm l := by
  induction l with
  | nil => exact List.Perm.refl _
  | cons p t ih =>
      unfold sortPairs
      exact (insertPair_perm p (sortPairs t)).trans (ih.cons p)

/-- Inserting into a key-sorted list keeps it key-sorted. -/
theorem insertPair_sorted (p : String × JVal) (l : List (String × JVal))
    (h : l.Pairwise (fun a b => keyLE a.1 b.1 = true)) :
    (insertPair p l).Pairwise (fun a b => keyLE a.1 b.1 = true) := by
  induction l with
  | nil => simp [insertPair]
  | cons q t ih =>
      unfold insertPair
      by_cases hle : keyLE p.1 q.1
      · simp only [hle, if_true]
        refine List.Pairwise.cons ?_ h
        intro b hb
        rcases List.mem_cons.mp hb with rfl | hbt
        · exact hle
        · exact keyLE_trans hle (List.rel_of_pairwise_cons h hbt)
      · simp only [hle, if_false]
        have hqp : keyLE q.1 p.1 = true := by
          rcases keyLE_total p.1 q.1 with h2 | h2
          · exact absurd h2 hle
          · exact h2
        refine List.Pairwise.cons ?_ (ih (List.Pairwise.of_cons h))
        intro b hb
        have hbperm := (insertPair_perm p t).mem_iff.mp hb
        rcases List.mem_cons.mp hbperm with rfl | hbt
        · exact hqp
        · exact List.rel_of_pairwise_cons h hbt

/-- `sortPairs` sorts by key. -/
theorem sortPairs_sorted (l : List (String × JVal)) :
    (sortPairs l).Pairwise (fun a b => keyLE a.1 b.1 = true) := by
  induction l with
  | nil => simp [sortPairs]
  | cons p t ih => exact insertPair_sorted p (sortPairs t) ih

/-- Two key-sorted association lists that are permutations of each other and
have distinct keys are equal. -/
theorem sorted_nodup_unique : ∀ l1 l2 : List (String × JVal), l1.Perm l2 →
    l1.Pairwise (fun a b => keyLE a.1 b.1 = true) →
    l2.Pairwise (fun a b => keyLE a.1 b.1 = true) →
    (l1.map Prod.fst).Nodup → l1 = l2 := by
  intro l1
  induction l1 with
  | nil =>
      intro l2 hperm _ _ _
      exact (List.Perm.nil_eq hperm).symm ▸ rfl
  | cons p t1 ih =>
      intro l2 hperm hs1 hs2 hnd
      cases l2 with
      | nil => exact absurd hperm.symm (by simp)
      | cons q t2 =>
          have hpq : p = q := by
            have hpmem : p ∈ q :: t2 := hperm.mem_iff.mp (by simp)
            have hqmem : q ∈ p :: t1 := hperm.symm.mem_iff.mp (by simp)
            rcases List.mem_cons.mp hpmem with h | hpt2
            · exact h
            · rcases List.mem_cons.mp hqmem with h | hqt1
              · exact h.symm
              · have h1 : keyLE p.1 q.1 = true := List.rel_of_pairwise_cons hs1 hqt1
                have h2 : keyLE q.1 p.1 = true := List.rel_of_pairwise_cons hs2 hpt2
                have hkeys : p.1 = q.1 := keyLE_antisymm h1 h2
                exfalso
                have hdup : p.1 ∈ t1.map Prod.fst := by
                  rw [hkeys]
                  exact List.mem_map_of_mem Prod.fst hqt1
                have hnotin : p.1 ∉ t1.map Prod.fst :=
                  (List.nodup_cons.mp (by simpa using hnd)).1
                exact hnotin hdup
          subst hpq
          have htail := ih t2 hperm.cons_inv (List.Pairwise.of_cons hs1)
            (List.Pairwise.of_cons hs2)
            (List.nodup_cons.mp (by simpa using hnd)).2
          rw [htail]

/-! ### Decimal digit runs

`ser` prints numbers with `intChars`; digit runs followed by a separator are
uniquely decodable, which gives the number case of serializer injectivity. -/

/-- With value zero no digits are produced, whatever the fuel. -/
theorem natCharsF_zero (fuel : Nat) : natCharsF fuel 0 = [] := by
  cases fuel <;> simp [natCharsF]

/-- Every character `natCharsF` emits is a decimal digit. -/
theorem natCharsF_digits : ∀ (fuel n : Nat), ∀ c ∈ natCharsF fuel n,
    48 ≤ c.toNat ∧ c.toNat ≤ 57 := by
  intro fuel
  induction fuel with
  | zero => intro n c hc; simp [natCharsF] at hc
  | succ fuel ih =>
      intro n c hc
      by_cases hn : n = 0
      · simp [natCharsF, hn] at hc
      · simp only [natCharsF, if_neg hn, List.mem_append, List.mem_singleton] at hc
        rcases hc with hc | hc
        · exact ih _ c hc
        · subst hc
          have := toNat_ofNat_valid (48 + n % 10) (Or.inl (by omega))
          omega

/-- `natChars` emits only digits. -/
theorem natChars_digits (n : Nat) : ∀ c ∈ natChars n,
    48 ≤ c.toNat ∧ c.toNat ≤ 57 := by
  intro c hc
  unfold natChars at hc
  by_cases hn : n = 0
  · rw [if_pos hn] at hc
    simp at hc
    subst hc
    decide
  · rw [if_neg hn] at hc
    exact natCharsF_digits n n c hc

/-- The decimal rendering of a natural number starts with a digit. -/
theorem natChars_head (n : Nat) : ∃ d rest, natChars n = d :: rest ∧
    48 ≤ d.toNat ∧ d.toNat ≤ 57 := by
  obtain ⟨d, rest, hd⟩ : ∃ d rest, natChars n = d :: rest := by
    unfold natChars
    by_cases hn : n = 0
    · exact ⟨'0', [], by simp [hn]⟩
    · rw [if_neg hn]
      obtain ⟨fuel, hf⟩ : ∃ f, n = f + 1 := ⟨n - 1, by omega⟩
      subst hf
      cases hcase : natCharsF (fuel + 1) (fuel + 1) with
      | nil =>
          exfalso
          rw [show natCharsF (fuel + 1) (fuel + 1) = natCharsF fuel ((fuel + 1) / 10)
              ++ [Char.ofNat (48 + (fuel + 1) % 10)] by simp [natCharsF, hn]] at hcase
          simp at hcase
      | cons d rest => exact ⟨d, rest, rfl⟩
  refine ⟨d, rest, hd, ?_⟩
  exact natChars_digits n d (by rw [hd]; simp)

/-- Appending one digit multiplies the accumulated value by ten. -/
theorem digitsVal_append (a : List Char) (c : Char) :
    digitsVal (a ++ [c]) = 10 * digitsVal a + (c.toNat - 48) := by
  unfold digitsVal
  rw [List.foldl_append]
  rfl

/-- With enough fuel `natCharsF` prints exactly the digits of its argument. -/
theorem natCharsF_val : ∀ (fuel n : Nat), n ≤ fuel →
    digitsVal (natCharsF fuel n) = n := by
  intro fuel
  induction fuel with
  | zero =>
      intro n h
      interval_cases n
      rfl
  | succ fuel ih =>
      intro n h
      by_cases hn : n = 0
      · rw [hn, natCharsF_zero]
        rfl
      · rw [show natCharsF (fuel + 1) n = natCharsF fuel (n / 10)
            ++ [Char.ofNat (48 + n % 10)] by simp [natCharsF, hn]]
        rw [digitsVal_append, ih (n / 10) (by omega)]
        have := toNat_ofNat_valid (48 + n % 10) (Or.inl (by omega))
        omega

/-- Decimal rendering is injective. -/
theorem natChars_inj {m n : Nat} (h : natChars m = natChars n) : m = n := by
  have hval : ∀ k : Nat, digitsVal (natChars k) = k := by
    intro k
    unfold natChars
    by_cases h0 : k = 0
    · rw [if_pos h0, h0]
      rfl
    · rw [if_neg h0]
      exact natCharsF_val k k le_rfl
  rw [← hval m, ← hval n, h]

/-- Two digit runs followed by non-digit (or empty) remainders that
concatenate to the same list coincide, remainders included. -/
theorem digit_run_unique : ∀ d1 d2 r1 r2 : List Char,
    (∀ c ∈ d1, 48 ≤ c.toNat ∧ c.toNat ≤ 57) →
    (∀ c ∈ d2, 48 ≤ c.toNat ∧ c.toNat ≤ 57) →
    (∀ c, r1.head? = some c → ¬(48 ≤ c.toNat ∧ c.toNat ≤ 57)) →
    (∀ c, r2.head? = some c → ¬(48 ≤ c.toNat ∧ c.toNat ≤ 57)) →
    d1 ++ r1 = d2 ++ r2 → d1 = d2 ∧ r1 = r2 := by
  intro d1
  induction d1 with
  | nil =>
      intro d2 r1 r2 _ hd2 hr1 _ h
      cases d2 with
      | nil => exact ⟨rfl, h⟩
      | cons y t2 =>
          simp only [List.nil_append, List.cons_append] at h
          exact absurd (hd2 y (by simp)) (hr1 y (by rw [h]; rfl))
  | cons x t1 ih =>
      intro d2 r1 r2 hd1 hd2 hr1 hr2 h
      cases d2 with
      | nil =>
          simp only [List.cons_append, List.nil_append] at h
          exact absurd (hd1 x (by simp)) (hr2 x (by rw [← h]; rfl))
      | cons y t2 =>
          simp only [List.cons_append, List.cons.injEq] at h
          obtain ⟨hxy, ht⟩ := h
          obtain ⟨heq, hr⟩ := ih t2 r1 r2 (fun c hc => hd1 c (by simp [hc]))
            (fun c hc => hd2 c (by simp [hc])) hr1 hr2 ht
          exact ⟨by rw [hxy, heq], hr⟩

/-- A legal follower of a serialized value never starts with a digit. -/
theorem follows_not_digit {r : List Char} (hf : Follows r) :
    ∀ c, r.head? = some c → ¬(48 ≤ c.toNat ∧ c.toNat ≤ 57) := by
  intro c hc
  rcases hf with rfl | ⟨c2, t, rfl, hc2⟩
  · simp at hc
  · simp only [List.head?_cons, Option.some.injEq] at hc
    subst hc
    rcases hc2 with rfl | rfl | rfl <;> decide

/-- Serialized integers followed by legal separators are uniquely decodable. -/
theorem serNum_seq (n1 n2 : Int) (r1 r2 : List Char) (hf1 : Follows r1)
    (hf2 : Follows r2) (h : intChars n1 ++ r1 = intChars n2 ++ r2) :
    n1 = n2 ∧ r1 = r2 := by
  unfold intChars at h
  by_cases h1 : n1 < 0 <;> by_cases h2 : n2 < 0
  · rw [if_pos h1, if_pos h2] at h
    simp only [List.cons_append, List.cons.injEq] at h
    obtain ⟨ha, hr⟩ := digit_run_unique _ _ _ _ (natChars_digits _) (natChars_digits _)
      (follows_not_digit hf1) (follows_not_digit hf2) h.2
    have := natChars_inj ha
    exact ⟨by omega, hr⟩
  · exfalso
    rw [if_pos h1, if_neg h2] at h
    obtain ⟨d, rest, hd, hd48, _⟩ := natChars_head n2.toNat
    rw [hd] at h
    simp only [List.cons_append, List.cons.injEq] at h
    have h45 : ('-').toNat = d.toNat := congrArg Char.toNat h.1
    have : ('-').toNat = 45 := by decide
    omega
  · exfalso
    rw [if_neg h1, if_pos h2] at h
    obtain ⟨d, rest, hd, hd48, _⟩ := natChars_head n1.toNat
    rw [hd] at h
    simp only [List.cons_append, List.cons.injEq] at h
    have h45 : d.toNat = ('-').toNat := congrArg Char.toNat h.1
    have : ('-').toNat = 45 := by decide
    omega
  · rw [if_neg h1, if_neg h2] at h
    obtain ⟨ha, hr⟩ := digit_run_unique _ _ _ _ (natChars_digits _) (natChars_digits _)
      (follows_not_digit hf1) (follows_not_digit hf2) h
    have := natChars_inj ha
    exact ⟨by omega, hr⟩

/-! ### String escaping is uniquely decodable

`unescape` inverts `escapeChar`, so a serialized string body determines the
original string up to its closing quote. -/

/-- The scalar value of any `Char` avoids the UTF-16 surrogate range. -/
theorem char_valid_range (c : Char) :
    c.toNat < 55296 ∨ (57343 < c.toNat ∧ c.toNat < 1114112) := c.valid

/-- `unhex` inverts `hexDigit` on one digit. -/
theorem unhex_hexDigit (d : Nat) (h : d < 16) : unhex (hexDigit d) = some d := by
  interval_cases d <;> decide

/-- `unhex4` inverts `hex4` and returns the remainder. -/
theorem unhex4_hex4 (n : Nat) (t : List Char) (h : n < 65536) :
    unhex4 (hex4 n ++ t) = some (n, t) := by
  have e : hex4 n ++ t = hexDigit (n / 4096 % 16) :: hexDigit (n / 256 % 16) ::
      hexDigit (n / 16 % 16) :: hexDigit (n % 16) :: t := rfl
  rw [e]
  simp only [unhex4]
  rw [unhex_hexDigit _ (by omega), unhex_hexDigit _ (by omega),
      unhex_hexDigit _ (by omega), unhex_hexDigit _ (by omega)]
  have harith : 4096 * (n / 4096 % 16) + 256 * (n / 256 % 16) + 16 * (n / 16 % 16) + n % 16
      = n := by omega
  show some (4096 * (n / 4096 % 16) + 256 * (n / 256 % 16) + 16 * (n / 16 % 16) + n % 16, t)
      = some (n, t)
  rw [harith]

/-- `unescape` decodes exactly one escaped character and returns the rest of
the input, for every character and continuation. -/
theorem unescape_escape (c : Char) (t : List Char) :
    unescape (escapeChar c ++ t) = some (c, t) := by
  by_cases h1 : c = '"'
  · subst h1; rfl
  by_cases h2 : c = '\\'
  · subst h2; rfl
  by_cases h3 : c.toNat = 8
  · have hc : c = Char.ofNat 8 := char_toNat_inj (by rw [h3]; decide)
    subst hc; rfl
  by_cases h4 : c.toNat = 9
  · have hc : c = Char.ofNat 9 := char_toNat_inj (by rw [h4]; decide)
    subst hc; rfl
  by_cases h5 : c.toNat = 10
  · have hc : c = Char.ofNat 10 := char_toNat_inj (by rw [h5]; decide)
    subst hc; rfl
  by_cases h6 : c.toNat = 12
  · have hc : c = Char.ofNat 12 := char_toNat_inj (by rw [h6]; decide)
    subst hc; rfl
  by_cases h7 : c.toNat = 13
  · have hc : c = Char.ofNat 13 := char_toNat_inj (by rw [h7]; decide)
    subst hc; rfl
  by_cases h8 : c.toNat < 32
  · have he : escapeChar c ++ t = '\\' :: 'u' :: (hex4 c.toNat ++ t) := by
      simp only [escapeChar, if_neg h1, if_neg h2, if_neg h3, if_neg h4, if_neg h5,
        if_neg h6, if_neg h7, if_pos h8]
      rfl
    rw [he]
    simp only [unescape]
    rw [unhex4_hex4 _ _ (by omega)]
    have hs1 : ¬(55296 ≤ c.toNat ∧ c.toNat < 56320) := by omega
    have hs2 : ¬(56320 ≤ c.toNat ∧ c.toNat < 57344) := by omega
    simp [hs1, hs2, Char.ofNat_toNat]
  by_cases h9 : c.toNat < 127
  · have he : escapeChar c ++ t = c :: t := by
      simp only [escapeChar, if_neg h1, if_neg h2, if_neg h3, if_neg h4, if_neg h5,
        if_neg h6, if_neg h7, if_neg h8, if_pos h9]
      rfl
    rw [he]
    simp only [unescape, if_neg h2, if_neg h1]
  by_cases h10 : c.toNat < 65536
  · have he : escapeChar c ++ t = '\\' :: 'u' :: (hex4 c.toNat ++ t) := by
      simp only [escapeChar, if_neg h1, if_neg h2, if_neg h3, if_neg h4, if_neg h5,
        if_neg h6, if_neg h7, if_neg h8, if_neg h9, if_pos h10]
      rfl
    rw [he]
    simp only [unescape]
    rw [unhex4_hex4 _ _ (by omega)]
    have hval := char_valid_range c
    have hs1 : ¬(55296 ≤ c.toNat ∧ c.toNat < 56320) := by omega
    have hs2 : ¬(56320 ≤ c.toNat ∧ c.toNat < 57344) := by omega
    simp [hs1, hs2, Char.ofNat_toNat]
  · have hval := char_valid_range c
    have he : escapeChar c ++ t = '\\' :: 'u' ::
        (hex4 (55296 + (c.toNat - 65536) / 1024)
          ++ ('\\' :: 'u' :: (hex4 (56320 + (c.toNat - 65536) % 1024) ++ t))) := by
      simp only [escapeChar, if_neg h1, if_neg h2, if_neg h3, if_neg h4, if_neg h5,
        if_neg h6, if_neg h7, if_neg h8, if_neg h9, if_neg h10]
      simp [List.append_assoc]
    rw [he]
    simp only [unescape]
    rw [unhex4_hex4 _ _ (by omega)]
    set hi := 55296 + (c.toNat - 65536) / 1024 with hhi
    set lo := 56320 + (c.toNat - 65536) % 1024 with hlo
    have hs1 : 55296 ≤ hi ∧ hi < 56320 := by omega
    simp only [hs1, and_self, if_true, reduceIte]
    rw [unhex4_hex4 _ _ (by omega)]
    have hs2 : 56320 ≤ lo ∧ lo < 57344 := by omega
    have harith : 65536 + 1024 * (hi - 55296) + (lo - 56320) = c.toNat := by omega
    simp [hs2, harith, Char.ofNat_toNat]

/-- Escaping distributes over cons. -/
theorem escStr_cons (c : Char) (t : List Char) :
    escStr (c :: t) = escapeChar c ++ escStr t := by
  simp [escStr]

/-- Two strings with equal character data are equal. -/
theorem string_eq_of_data {a b : String} (h : a.data = b.data) : a = b := by
  cases a
  cases b
  exact congrArg String.mk h

/-- The escaped body of a string determines the string up to the closing
quote, remainder included. -/
theorem escStr_body_unique : ∀ l1 l2 r1 r2 : List Char,
    escStr l1 ++ '"' :: r1 = escStr l2 ++ '"' :: r2 → l1 = l2 ∧ r1 = r2 := by
  intro l1
  induction l1 with
  | nil =>
      intro l2 r1 r2 h
      cases l2 with
      | nil => simpa [escStr] using h
      | cons c t2 =>
          exfalso
          have hu := congrArg unescape h
          rw [show escStr [] ++ '"' :: r1 = '"' :: r1 from rfl,
            escStr_cons, List.append_assoc, unescape_escape,
            show unescape ('"' :: r1) = none from rfl] at hu
          cases hu
  | cons c1 t1 ih =>
      intro l2 r1 r2 h
      cases l2 with
      | nil =>
          exfalso
          have hu := congrArg unescape h
          rw [show escStr [] ++ '"' :: r2 = '"' :: r2 from rfl,
            escStr_cons, List.append_assoc, unescape_escape,
            show unescape ('"' :: r2) = none from rfl] at hu
          cases hu
      | cons c2 t2 =>
          have hu := congrArg unescape h
          rw [escStr_cons, escStr_cons, List.append_assoc, List.append_assoc,
            unescape_escape, unescape_escape] at hu
          simp only [Option.some.injEq, Prod.mk.injEq] at hu
          obtain ⟨hc, ht⟩ := hu
          obtain ⟨heq, hr⟩ := ih t2 r1 r2 ht
          exact ⟨by rw [hc, heq], hr⟩

/-- Serialized strings are uniquely decodable with their remainders. -/
theorem serStr_seq (s1 s2 : String) (r1 r2 : List Char)
    (h : serStr s1 ++ r1 = serStr s2 ++ r2) : s1 = s2 ∧ r1 = r2 := by
  unfold serStr at h
  simp only [List.cons_append, List.append_assoc, List.singleton_append,
    List.cons.injEq, true_and] at h
  obtain ⟨hd, hr⟩ := escStr_body_unique s1.data s2.data r1 r2 h
  exact ⟨string_eq_of_data hd, hr⟩

/-! ### Head classification of serializations -/

/-- Ways a remainder can legally start. -/
theorem follows_nil : Follows [] := Or.inl rfl

/-- A comma may follow a serialized value. -/
theorem follows_comma (r : List Char) : Follows (',' :: r) :=
  Or.inr ⟨',', r, rfl, Or.inl rfl⟩

/-- A closing bracket may follow a serialized value. -/
theorem follows_rbracket (r : List Char) : Follows (']' :: r) :=
  Or.inr ⟨']', r, rfl, Or.inr (Or.inl rfl)⟩

/-- A closing brace may follow a serialized value. -/
theorem follows_rbrace (r : List Char) : Follows (Char.ofNat 125 :: r) :=
  Or.inr ⟨Char.ofNat 125, r, rfl, Or.inr (Or.inr rfl)⟩

/-- A digit or minus sign classifies as a number head and is not a
separator. -/
theorem digit_headclass {c : Char}
    (h : (48 ≤ c.toNat ∧ c.toNat ≤ 57) ∨ c.toNat = 45) :
    serHeadClass c = 6 ∧ (c ≠ ',' ∧ c ≠ ']' ∧ c ≠ Char.ofNat 125) := by
  have h1 : c ≠ '"' := by intro he; subst he; revert h; decide
  have h2 : c ≠ '[' := by intro he; subst he; revert h; decide
  have h3 : c ≠ Char.ofNat 123 := by intro he; subst he; revert h; decide
  have h4 : c ≠ 'n' := by intro he; subst he; revert h; decide
  have h5 : c ≠ 't' := by intro he; subst he; revert h; decide
  have h6 : c ≠ 'f' := by intro he; subst he; revert h; decide
  refine ⟨?_, by intro he; subst he; revert h; decide,
    by intro he; subst he; revert h; decide,
    by intro he; subst he; revert h; decide⟩
  unfold serHeadClass
  rw [if_neg h1, if_neg h2, if_neg h3, if_neg h4, if_neg h5, if_neg h6]

/-- Every serialization is nonempty, starts with a character that classifies
its constructor, and never starts with a separator. -/
theorem ser_head : ∀ v : JVal, ∃ c t, ser v = c :: t ∧
    serHeadClass c = classOf v ∧ (c ≠ ',' ∧ c ≠ ']' ∧ c ≠ Char.ofNat 125) := by
  intro v
  cases v with
  | jnull => exact ⟨'n', ['u', 'l', 'l'], by decide, by decide, by decide⟩
  | jbool b =>
      cases b with
      | false => exact ⟨'f', "alse".data, by decide, by decide, by decide⟩
      | true => exact ⟨'t', "rue".data, by decide, by decide, by decide⟩
  | jnum m =>
      by_cases hm : m < 0
      · refine ⟨'-', natChars m.natAbs, ?_, ?_, (digit_headclass (Or.inr (by decide))).2⟩
        · show intChars m = '-' :: natChars m.natAbs
          unfold intChars
          rw [if_pos hm]
        · rw [show classOf (JVal.jnum m) = 6 from rfl]
          exact (digit_headclass (Or.inr (by decide))).1
      · obtain ⟨d, rest, hd, h48, h57⟩ := natChars_head m.toNat
        refine ⟨d, rest, ?_, ?_, (digit_headclass (Or.inl ⟨h48, h57⟩)).2⟩
        · show intChars m = d :: rest
          unfold intChars
          rw [if_neg hm]
          exact hd
        · rw [show classOf (JVal.jnum m) = 6 from rfl]
          exact (digit_headclass (Or.inl ⟨h48, h57⟩)).1
  | jstr s => exact ⟨'"', escStr s.data ++ ['"'], rfl, rfl, by decide⟩
  | jarr xs => exact ⟨'[', serList xs ++ [']'], rfl, rfl, by decide⟩
  | jobj kvs =>
      exact ⟨Char.ofNat 123, serObj kvs ++ [Char.ofNat 125], rfl, rfl, by decide⟩

/-! ### Unique decodability of the serializer -/

/-- Rebracketing of a serialized array followed by a remainder. -/
theorem ser_jarr_append (xs : List JVal) (r : List Char) :
    ser (JVal.jarr xs) ++ r = '[' :: (serList xs ++ ']' :: r) := by
  calc ser (JVal.jarr xs) ++ r = (('[' :: serList xs) ++ [']']) ++ r := rfl
    _ = ('[' :: serList xs) ++ ([']'] ++ r) := List.append_assoc ..
    _ = '[' :: (serList xs ++ ']' :: r) := rfl

/-- Rebracketing of a serialized object followed by a remainder. -/
theorem ser_jobj_append (kvs : List (String × JVal)) (r : List Char) :
    ser (JVal.jobj kvs) ++ r
      = Char.ofNat 123 :: (serObj kvs ++ Char.ofNat 125 :: r) := by
  calc ser (JVal.jobj kvs) ++ r
      = ((Char.ofNat 123 :: serObj kvs) ++ [Char.ofNat 125]) ++ r := rfl
    _ = (Char.ofNat 123 :: serObj kvs) ++ ([Char.ofNat 125] ++ r) := List.append_assoc ..
    _ = Char.ofNat 123 :: (serObj kvs ++ Char.ofNat 125 :: r) := rfl

/-- Rebracketing of a serialized nonempty element list followed by a
remainder: it starts with the first element's serialization, and the rest is
again a legal follower. -/
theorem serList_cons_append (v : JVal) (t : List JVal) (X : List Char) :
    (t = [] ∧ serList (v :: t) ++ X = ser v ++ X) ∨
    (t ≠ [] ∧ serList (v :: t) ++ X
      = ser v ++ (',' :: ' ' :: (serList t ++ X))) := by
  cases t with
  | nil => exact Or.inl ⟨rfl, rfl⟩
  | cons w u =>
      refine Or.inr ⟨by simp, ?_⟩
      calc serList (v :: w :: u) ++ X
          = (ser v ++ (',' :: ' ' :: serList (w :: u))) ++ X := rfl
        _ = ser v ++ ((',' :: ' ' :: serList (w :: u)) ++ X) := List.append_assoc ..
        _ = ser v ++ (',' :: ' ' :: (serList (w :: u) ++ X)) := rfl

/-- Rebracketing of a serialized nonempty field list followed by a
remainder. -/
theorem serObj_cons_append (k : String) (v : JVal) (t : List (String × JVal))
    (X : List Char) :
    (t = [] ∧ serObj ((k, v) :: t) ++ X
      = serStr k ++ (':' :: ' ' :: (ser v ++ X))) ∨
    (t ≠ [] ∧ serObj ((k, v) :: t) ++ X
      = serStr k ++ (':' :: ' ' :: (ser v ++ (',' :: ' ' :: (serObj t ++ X))))) := by
  cases t with
  | nil =>
      refine Or.inl ⟨rfl, ?_⟩
      calc serObj [(k, v)] ++ X
          = (serStr k ++ (':' :: ' ' :: ser v)) ++ X := rfl
        _ = serStr k ++ ((':' :: ' ' :: ser v) ++ X) := List.append_assoc ..
        _ = serStr k ++ (':' :: ' ' :: (ser v ++ X)) := rfl
  | cons q u =>
      refine Or.inr ⟨by simp, ?_⟩
      calc serObj ((k, v) :: q :: u) ++ X
          = ((serStr k ++ (':' :: ' ' :: ser v)) ++ (',' :: ' ' :: serObj (q :: u))) ++ X :=
            rfl
        _ = serStr k ++ ((':' :: ' ' :: ser v) ++ ((',' :: ' ' :: serObj (q :: u)) ++ X)) := by
            rw [List.append_assoc, List.append_assoc]
        _ = serStr k ++ (':' :: ' ' :: (ser v ++ (',' :: ' ' :: (serObj (q :: u) ++ X)))) :=
            rfl

/-- Array element serialization with the closing bracket is uniquely
decodable, given decodability of the elements. -/
theorem serList_seq : ∀ xs1 xs2 : List JVal, ∀ r1 r2 : List Char,
    (∀ v ∈ xs1, ∀ v2 r3 r4, Follows r3 → Follows r4 →
      ser v ++ r3 = ser v2 ++ r4 → v = v2 ∧ r3 = r4) →
    serList xs1 ++ ']' :: r1 = serList xs2 ++ ']' :: r2 →
    xs1 = xs2 ∧ r1 = r2 := by
  intro xs1
  induction xs1 with
  | nil =>
      intro xs2 r1 r2 _ h
      rw [show serList ([] : List JVal) = [] from rfl, List.nil_append] at h
      cases xs2 with
      | nil =>
          rw [show serList ([] : List JVal) = [] from rfl, List.nil_append] at h
          exact ⟨rfl, by injection h⟩
      | cons v2 t2 =>
          exfalso
          obtain ⟨c, ct, hser, _, hc⟩ := ser_head v2
          rcases serList_cons_append v2 t2 (']' :: r2) with ⟨_, he⟩ | ⟨_, he⟩ <;>
          · rw [he, hser] at h
            simp only [List.cons_append, List.cons.injEq] at h
            exact hc.2.1 h.1.symm
  | cons v1 t1 ih =>
      intro xs2 r1 r2 hih h
      cases xs2 with
      | nil =>
          exfalso
          rw [show serList ([] : List JVal) = [] from rfl, List.nil_append] at h
          obtain ⟨c, ct, hser, _, hc⟩ := ser_head v1
          rcases serList_cons_append v1 t1 (']' :: r1) with ⟨_, he⟩ | ⟨_, he⟩ <;>
          · rw [he, hser] at h
            simp only [List.cons_append, List.cons.injEq] at h
            exact hc.2.1 h.1
      | cons v2 t2 =>
          have hlosem : v1 ∈ v1 :: t1 := by simp
          rcases serList_cons_append v1 t1 (']' :: r1) with ⟨ht1, he1⟩ | ⟨ht1, he1⟩ <;>
            rcases serList_cons_append v2 t2 (']' :: r2) with ⟨ht2, he2⟩ | ⟨ht2, he2⟩ <;>
            rw [he1, he2] at h
          · obtain ⟨hv, hr⟩ := hih v1 hlosem v2 _ _ (follows_rbracket r1)
              (follows_rbracket r2) h
            subst ht1; subst ht2
            injection hr with hrh hr1
            exact ⟨by rw [hv], hr1⟩
          · exfalso
            obtain ⟨hv, hr⟩ := hih v1 hlosem v2 _ _ (follows_rbracket r1)
              (follows_comma _) h
            injection hr with hrh _
            exact absurd hrh (by decide)
          · exfalso
            obtain ⟨hv, hr⟩ := hih v1 hlosem v2 _ _ (follows_comma _)
              (follows_rbracket r2) h
            injection hr with hrh _
            exact absurd hrh (by decide)
          · obtain ⟨hv, hr⟩ := hih v1 hlosem v2 _ _ (follows_comma _)
              (follows_comma _) h
            injection hr with _ hr2
            injection hr2 with _ hr3
            obtain ⟨hts, hrr⟩ := ih t2 r1 r2
              (fun v hv2 => hih v (by simp [hv2])) hr3
            exact ⟨by rw [hv, hts], hrr⟩

/-- Rebracketing of a serialized key followed by a remainder. -/
theorem serStr_append (k : String) (Y : List Char) :
    serStr k ++ Y = '"' :: (escStr k.data ++ '"' :: Y) := by
  calc serStr k ++ Y = (('"' :: escStr k.data) ++ ['"']) ++ Y := rfl
    _ = ('"' :: escStr k.data) ++ (['"'] ++ Y) := List.append_assoc ..
    _ = '"' :: (escStr k.data ++ '"' :: Y) := rfl

/-- Object field serialization with the closing brace is uniquely decodable,
given decodability of the field values. -/
theorem serObj_seq : ∀ kvs1 kvs2 : List (String × JVal), ∀ r1 r2 : List Char,
    (∀ p ∈ kvs1, ∀ v2 r3 r4, Follows r3 → Follows r4 →
      ser p.2 ++ r3 = ser v2 ++ r4 → p.2 = v2 ∧ r3 = r4) →
    serObj kvs1 ++ Char.ofNat 125 :: r1 = serObj kvs2 ++ Char.ofNat 125 :: r2 →
    kvs1 = kvs2 ∧ r1 = r2 := by
  intro kvs1
  induction kvs1 with
  | nil =>
      intro kvs2 r1 r2 _ h
      rw [show serObj ([] : List (String × JVal)) = [] from rfl, List.nil_append] at h
      cases kvs2 with
      | nil =>
          rw [show serObj ([] : List (String × JVal)) = [] from rfl,
            List.nil_append] at h
          exact ⟨rfl, by injection h⟩
      | cons p2 t2 =>
          exfalso
          obtain ⟨k2, v2⟩ := p2
          rcases serObj_cons_append k2 v2 t2 (Char.ofNat 125 :: r2) with
            ⟨_, he⟩ | ⟨_, he⟩ <;>
          · rw [he, serStr_append] at h
            injection h with hrh _
            exact absurd hrh (by decide)
  | cons p1 t1 ih =>
      intro kvs2 r1 r2 hih h
      obtain ⟨k1, v1⟩ := p1
      cases kvs2 with
      | nil =>
          exfalso
          rw [show serObj ([] : List (String × JVal)) = [] from rfl,
            List.nil_append] at h
          rcases serObj_cons_append k1 v1 t1 (Char.ofNat 125 :: r1) with
            ⟨_, he⟩ | ⟨_, he⟩ <;>
          · rw [he, serStr_append] at h
            injection h with hrh _
            exact absurd hrh (by decide)
      | cons p2 t2 =>
          obtain ⟨k2, v2⟩ := p2
          have hmem : (k1, v1) ∈ (k1, v1) :: t1 := by simp
          rcases serObj_cons_append k1 v1 t1 (Char.ofNat 125 :: r1) with
            ⟨ht1, he1⟩ | ⟨ht1, he1⟩ <;>
            rcases serObj_cons_append k2 v2 t2 (Char.ofNat 125 :: r2) with
              ⟨ht2, he2⟩ | ⟨ht2, he2⟩ <;>
            rw [he1, he2] at h <;>
            obtain ⟨hk, hrest⟩ := serStr_seq k1 k2 _ _ h
          · injection hrest with _ hrest2
            injection hrest2 with _ hrest3
            obtain ⟨hv, hr⟩ := hih (k1, v1) hmem v2 _ _ (follows_rbrace r1)
              (follows_rbrace r2) hrest3
            subst ht1; subst ht2
            injection hr with _ hr1
            exact ⟨by rw [hk, show v1 = v2 from hv], hr1⟩
          · exfalso
            injection hrest with _ hrest2
            injection hrest2 with _ hrest3
            obtain ⟨hv, hr⟩ := hih (k1, v1) hmem v2 _ _ (follows_rbrace r1)
              (follows_comma _) hrest3
            injection hr with hrh _
            exact absurd hrh (by decide)
          · exfalso
            injection hrest with _ hrest2
            injection hrest2 with _ hrest3
            obtain ⟨hv, hr⟩ := hih (k1, v1) hmem v2 _ _ (follows_comma _)
              (follows_rbrace r2) hrest3
            injection hr with hrh _
            exact absurd hrh (by decide)
          · injection hrest with _ hrest2
            injection hrest2 with _ hrest3
            obtain ⟨hv, hr⟩ := hih (k1, v1) hmem v2 _ _ (follows_comma _)
              (follows_comma _) hrest3
            injection hr with _ hr2
            injection hr2 with _ hr3
            obtain ⟨hts, hrr⟩ := ih t2 r1 r2
              (fun p hp => hih p (by simp [hp])) hr3
            exact ⟨by rw [hk, show v1 = v2 from hv, hts], hrr⟩

/-- The serializer is uniquely decodable: two serialized values followed by
legal separators that concatenate identically are identical, separators
included.  The natural number bounds the size of the first value for the
strong induction. -/
theorem ser_unique : ∀ (n : Nat) (v1 : JVal), sizeOf v1 ≤ n →
    ∀ (v2 : JVal) (r1 r2 : List Char), Follows r1 → Follows r2 →
    ser v1 ++ r1 = ser v2 ++ r2 → v1 = v2 ∧ r1 = r2 := by
  intro n
  induction n with
  | zero =>
      intro v1 hsz
      exfalso
      cases v1 <;> simp at hsz
  | succ n ih =>
      intro v1 hsz v2 r1 r2 hf1 hf2 h
      have hclass : classOf v1 = classOf v2 := by
        obtain ⟨c1, t1, hs1, hc1, _⟩ := ser_head v1
        obtain ⟨c2, t2, hs2, hc2, _⟩ := ser_head v2
        rw [hs1, hs2] at h
        simp only [List.cons_append, List.cons.injEq] at h
        rw [← hc1, ← hc2, h.1]
      cases v1 with
      | jnull =>
          cases v2 with
          | jnull => exact ⟨rfl, List.append_cancel_left h⟩
          | jbool b2 => cases b2 <;> simp [classOf] at hclass
          | jnum m2 => simp [classOf] at hclass
          | jstr s2 => simp [classOf] at hclass
          | jarr ys => simp [classOf] at hclass
          | jobj qs => simp [classOf] at hclass
      | jbool b1 =>
          cases v2 with
          | jnull => cases b1 <;> simp [classOf] at hclass
          | jbool b2 =>
              have hb : b1 = b2 := by
                cases b1 <;> cases b2 <;> first | rfl | simp [classOf] at hclass
              subst hb
              exact ⟨rfl, List.append_cancel_left h⟩
          | jnum m2 => cases b1 <;> simp [classOf] at hclass
          | jstr s2 => cases b1 <;> simp [classOf] at hclass
          | jarr ys => cases b1 <;> simp [classOf] at hclass
          | jobj qs => cases b1 <;> simp [classOf] at hclass
      | jnum m1 =>
          cases v2 with
          | jnull => simp [classOf] at hclass
          | jbool b2 => cases b2 <;> simp [classOf] at hclass
          | jnum m2 =>
              obtain ⟨hm, hr⟩ := serNum_seq m1 m2 r1 r2 hf1 hf2 h
              exact ⟨by rw [hm], hr⟩
          | jstr s2 => simp [classOf] at hclass
          | jarr ys => simp [classOf] at hclass
          | jobj qs => simp [classOf] at hclass
      | jstr s1 =>
          cases v2 with
          | jnull => simp [classOf] at hclass
          | jbool b2 => cases b2 <;> simp [classOf] at hclass
          | jnum m2 => simp [classOf] at hclass
          | jstr s2 =>
              obtain ⟨hs, hr⟩ := serStr_seq s1 s2 r1 r2 h
              exact ⟨by rw [hs], hr⟩
          | jarr ys => simp [classOf] at hclass
          | jobj qs => simp [classOf] at hclass
      | jarr xs1 =>
          cases v2 with
          | jnull => simp [classOf] at hclass
          | jbool b2 => cases b2 <;> simp [classOf] at hclass
          | jnum m2 => simp [classOf] at hclass
          | jstr s2 => simp [classOf] at hclass
          | jarr xs2 =>
              rw [ser_jarr_append, ser_jarr_append] at h
              injection h with _ h2
              have hihe : ∀ v ∈ xs1, ∀ v3 r3 r4, Follows r3 → Follows r4 →
                  ser v ++ r3 = ser v3 ++ r4 → v = v3 ∧ r3 = r4 := by
                intro v hv
                apply ih
                have h1 := List.sizeOf_lt_of_mem hv
                have h3 : sizeOf (JVal.jarr xs1) = 1 + sizeOf xs1 := by simp
                omega
              obtain ⟨hxs, hr⟩ := serList_seq xs1 xs2 r1 r2 hihe h2
              exact ⟨by rw [hxs], hr⟩
          | jobj qs => simp [classOf] at hclass
      | jobj kvs1 =>
          cases v2 with
          | jnull => simp [classOf] at hclass
          | jbool b2 => cases b2 <;> simp [classOf] at hclass
          | jnum m2 => simp [classOf] at hclass
          | jstr s2 => simp [classOf] at hclass
          | jarr ys => simp [classOf] at hclass
          | jobj kvs2 =>
              rw [ser_jobj_append, ser_jobj_append] at h
              injection h with _ h2
              have hihe : ∀ p ∈ kvs1, ∀ v3 r3 r4, Follows r3 → Follows r4 →
                  ser p.2 ++ r3 = ser v3 ++ r4 → p.2 = v3 ∧ r3 = r4 := by
                intro p hp
                apply ih
                have h1 := List.sizeOf_lt_of_mem hp
                have h3 : sizeOf (JVal.jobj kvs1) = 1 + sizeOf kvs1 := by simp
                have h4 : sizeOf p.2 < sizeOf p := by
                  obtain ⟨k, v⟩ := p
                  show sizeOf v < sizeOf (k, v)
                  have h5 : sizeOf (k, v) = 1 + sizeOf k + sizeOf v := by simp
                  omega
                omega
              obtain ⟨hkvs, hr⟩ := serObj_seq kvs1 kvs2 r1 r2 hihe h2
              exact ⟨by rw [hkvs], hr⟩

/-- The serializer is injective. -/
theorem ser_inj {v1 v2 : JVal} (h : ser v1 = ser v2) : v1 = v2 :=
  (ser_unique (sizeOf v1) v1 le_rfl v2 [] [] follows_nil follows_nil
    (by rw [List.append_nil, List.append_nil, h])).1

/-! ### Canonicalization -/

/-- `canonList` is a map. -/
theorem canonList_eq_map (xs : List JVal) : canonList xs = xs.map canon := by
  induction xs with
  | nil => rfl
  | cons v t ih => simp [canonList, ih]

/-- `canonPairs` is a map on the values. -/
theorem canonPairs_eq_map (kvs : List (String × JVal)) :
    canonPairs kvs = kvs.map (fun p => (p.1, canon p.2)) := by
  induction kvs with
  | nil => rfl
  | cons p t ih =>
      obtain ⟨k, v⟩ := p
      simp [canonPairs, ih]

/-- `canonPairs` keeps the key sequence. -/
theorem canonPairs_map_fst (kvs : List (String × JVal)) :
    (canonPairs kvs).map Prod.fst = kvs.map Prod.fst := by
  rw [canonPairs_eq_map, List.map_map]
  exact List.map_congr_left (fun p _ => rfl)

/-- The code-point order is irreflexive. -/
theorem lexLt_irrefl (a : List Char) : lexLt a a = false := by
  cases h : lexLt a a
  · rfl
  · have h2 := lexLt_asymm a a h
    rw [h2] at h
    cases h

/-- The strict key order implies the non-strict one. -/
theorem lexLt_keyLE {a b : String} (h : lexLt a.data b.data = true) :
    keyLE a b = true := by
  unfold keyLE
  rw [lexLt_asymm _ _ h]
  rfl

/-- Insertion sort is the identity on a sorted list. -/
theorem sortPairs_eq_self : ∀ l : List (String × JVal),
    l.Pairwise (fun p q => keyLE p.1 q.1 = true) → sortPairs l = l := by
  intro l
  induction l with
  | nil => intro _; rfl
  | cons p t ih =>
      intro h
      have hrest := ih (List.Pairwise.of_cons h)
      unfold sortPairs
      rw [hrest]
      cases t with
      | nil => rfl
      | cons q u =>
          unfold insertPair
          rw [if_pos (List.rel_of_pairwise_cons h (by simp))]

/-- Canonicalization fixes every canonical value. -/
theorem canon_eq_self : ∀ v : JVal, CanonicalJ v → canon v = v := by
  intro v hv
  induction hv with
  | cnull => rfl
  | cbool b => rfl
  | cnum m => rfl
  | cstr s => rfl
  | carr xs hxs ih =>
      rw [show canon (JVal.jarr xs) = JVal.jarr (canonList xs) from rfl,
        canonList_eq_map]
      have hmap : xs.map canon = xs.map id := List.map_congr_left ih
      rw [hmap, List.map_id]
  | cobj kvs hsort hvals ih =>
      rw [show canon (JVal.jobj kvs) = JVal.jobj (sortPairs (canonPairs kvs)) from rfl,
        canonPairs_eq_map]
      have hmap : kvs.map (fun p => (p.1, canon p.2)) = kvs.map id := by
        apply List.map_congr_left
        intro p hp
        obtain ⟨k, v⟩ := p
        have := ih (k, v) hp
        simp [this]
      rw [hmap, List.map_id]
      congr 1
      apply sortPairs_eq_self
      exact hsort.imp (fun h => lexLt_keyLE h)

/-- Two permuted association lists with the same key sequence and distinct
keys are equal. -/
theorem perm_eq_of_map_fst_eq : ∀ l1 l2 : List (String × JVal), l1.Perm l2 →
    l1.map Prod.fst = l2.map Prod.fst → (l1.map Prod.fst).Nodup → l1 = l2 := by
  intro l1
  induction l1 with
  | nil =>
      intro l2 hp _ _
      exact (List.Perm.nil_eq hp).symm ▸ rfl
  | cons p t1 ih =>
      intro l2 hp hm hnd
      cases l2 with
      | nil => exact absurd hp (by simp)
      | cons q t2 =>
          simp only [List.map_cons, List.cons.injEq] at hm
          obtain ⟨hpq1, hmt⟩ := hm
          have hpq : p = q := by
            have hpmem : p ∈ q :: t2 := hp.mem_iff.mp (by simp)
            rcases List.mem_cons.mp hpmem with h | hpt2
            · exact h
            · exfalso
              have h1 : p.1 ∈ t2.map Prod.fst := List.mem_map_of_mem Prod.fst hpt2
              rw [← hmt] at h1
              exact (List.nodup_cons.mp (by simpa using hnd)).1 h1
          subst hpq
          have := ih t2 hp.cons_inv hmt (List.nodup_cons.mp (by simpa using hnd)).2
          rw [this]

/-! ### Digest shape -/

/-- Hex rendering doubles the byte count. -/
theorem hexDigestChars_length : ∀ bytes : List Nat,
    (hexDigestChars bytes).length = 2 * bytes.length := by
  intro bytes
  induction bytes with
  | nil => rfl
  | cons b t ih =>
      show (hexByte b ++ hexDigestChars t).length = 2 * (b :: t).length
      rw [List.length_append, ih]
      have h2 : (hexByte b).length = 2 := rfl
      rw [h2, List.length_cons]
      omega

/-- A SHA-256 digest is always 32 bytes. -/
theorem sha256Bytes_length (msg : List Nat) : (sha256Bytes msg).length = 32 := by
  show (digestBytes _).length = 32
  rfl

/-- `generate_cache_key` always produces 64 characters. -/
theorem generate_cache_key_length (v : JVal) :
    (generate_cache_key v).length = 64 := by
  show (hexDigestChars (sha256Bytes (utf8 (dumps v)))).length = 64
  rw [hexDigestChars_length, sha256Bytes_length]

/-- C2: `generate_cache_key` always returns a 64-character digest; supplying
an identity record's distinct keys in any other order yields the very same
digest (the serializer sorts keys first); and two canonical records that
differ anywhere yield different serializations — hence different digests up
to hash collision. -/
theorem C2_cache_key_deterministic :
    (∀ v : JVal, (generate_cache_key v).length = 64) ∧
    (∀ kvs1 kvs2 : List (String × JVal), kvs1.Perm kvs2 →
      (kvs1.map Prod.fst).Nodup →
      generate_cache_key (.jobj kvs1) = generate_cache_key (.jobj kvs2)) ∧
    (∀ v1 v2 : JVal, CanonicalJ v1 → CanonicalJ v2 → v1 ≠ v2 →
      dumps v1 ≠ dumps v2) := by
  refine ⟨generate_cache_key_length, ?_, ?_⟩
  · intro kvs1 kvs2 hperm hnd
    have hcanon : canon (.jobj kvs1) = canon (.jobj kvs2) := by
      rw [show canon (JVal.jobj kvs1) = JVal.jobj (sortPairs (canonPairs kvs1))
          from rfl,
        show canon (JVal.jobj kvs2) = JVal.jobj (sortPairs (canonPairs kvs2))
          from rfl]
      congr 1
      have hcp : (canonPairs kvs1).Perm (canonPairs kvs2) := by
        rw [canonPairs_eq_map, canonPairs_eq_map]
        exact hperm.map _
      apply sorted_nodup_unique
      · exact ((sortPairs_perm _).trans hcp).trans (sortPairs_perm _).symm
      · exact sortPairs_sorted _
      · exact sortPairs_sorted _
      · have hp2 : ((sortPairs (canonPairs kvs1)).map Prod.fst).Perm
            (kvs1.map Prod.fst) := by
          rw [← canonPairs_map_fst kvs1]
          exact (sortPairs_perm _).map _
        exact hp2.nodup_iff.mpr hnd
    unfold generate_cache_key dumps
    rw [hcanon]
  · intro v1 v2 hc1 hc2 hne hdeq
    apply hne
    unfold dumps at hdeq
    rw [canon_eq_self v1 hc1, canon_eq_self v2 hc2] at hdeq
    exact ser_inj hdeq

/-- C2 witness at concrete records. -/
theorem C2_cache_key_deterministic_witness :
    (generate_cache_key (.jobj [("b", .jnum 2), ("a", .jnum 1)])).length = 64 ∧
    generate_cache_key (.jobj [("b", .jnum 2), ("a", .jnum 1)])
      = generate_cache_key (.jobj [("a", .jnum 1), ("b", .jnum 2)]) ∧
    dumps (.jnum 1) ≠ dumps (.jnum 2) := by
  refine ⟨C2_cache_key_deterministic.1 _,
    C2_cache_key_deterministic.2.1 _ _ (List.Perm.swap _ _ _) (by decide),
    C2_cache_key_deterministic.2.2 _ _ (.cnum 1) (.cnum 2) ?_⟩
  intro h
  simp at h

/-! ### Claim C3: what enters the `get_data` cache key -/

/-- Lookup misses when no key of the association list matches. -/
theorem lookup_eq_none_of_not_mem : ∀ (kw : List (String × JVal)) (k : String),
    (∀ q ∈ kw, q.1 ≠ k) → kw.lookup k = none := by
  intro kw k
  induction kw with
  | nil => intro _; rfl
  | cons q t ih =>
      intro h
      obtain ⟨a, b⟩ := q
      have ha : a ≠ k := h (a, b) (by simp)
      have hbeq : (k == a) = false := beq_eq_false_iff_ne.mpr (Ne.symm ha)
      simp only [List.lookup]
      rw [hbeq]
      exact ih (fun q hq => h q (by simp [hq]))

/-- With keyword keys disjoint from the base record, `dict.update` appends:
every option — `cache`, `frame` and `frame_static` included — stays in the
identity record. -/
theorem get_data_identifier_disjoint (dk nm : String) (ts : List Int)
    (kwargs : List (String × JVal))
    (hkw : ∀ q ∈ kwargs, q.1 ≠ "data_key" ∧ q.1 ≠ "spacecraft" ∧ q.1 ≠ "times") :
    get_data_identifier dk nm ts kwargs
      = .jobj (base_identifier dk nm ts ++ kwargs) := by
  unfold get_data_identifier dictUpdate
  congr 1
  have hl1 : kwargs.lookup "data_key" = none :=
    lookup_eq_none_of_not_mem kwargs _ (fun q hq => (hkw q hq).1)
  have hl2 : kwargs.lookup "spacecraft" = none :=
    lookup_eq_none_of_not_mem kwargs _ (fun q hq => (hkw q hq).2.1)
  have hl3 : kwargs.lookup "times" = none :=
    lookup_eq_none_of_not_mem kwargs _ (fun q hq => (hkw q hq).2.2)
  have hmap : (base_identifier dk nm ts).map
      (fun p => ((kwargs.lookup p.1).map (fun v => (p.1, v))).getD p)
      = base_identifier dk nm ts := by
    unfold base_identifier
    simp only [List.map_cons, List.map_nil, hl1, hl2, hl3, Option.map_none',
      Option.getD_none]
  have hfil : kwargs.filter
      (fun q => ((base_identifier dk nm ts).lookup q.1).isNone) = kwargs := by
    apply List.filter_eq_self.mpr
    intro q hq
    have hb : (base_identifier dk nm ts).lookup q.1 = none := by
      apply lookup_eq_none_of_not_mem
      intro p hp
      unfold base_identifier at hp
      simp only [List.mem_cons, List.not_mem_nil, or_false] at hp
      rcases hp with rfl | rfl | rfl
      · exact Ne.symm (hkw q hq).1
      · exact Ne.symm (hkw q hq).2.1
      · exact Ne.symm (hkw q hq).2.2
    rw [hb]
    rfl
  rw [hmap, hfil]

set_option maxHeartbeats 4000000 in
/-- C3 counterexample: two `get_data` calls that differ ONLY in the `frame`
keyword derive DIFFERENT cache keys, because `identifier.update(kwargs)`
runs before `cache` and `frame` are popped out of `kwargs`
(spacecraft.py lines 83-89), so `frame` participates in the digest. -/
theorem C3_frame_affects_key_counterexample :
    get_data_cache_key "mag" "wind" [1500000000]
        [("cache", .jbool true), ("frame", .jstr "GSE")]
      ≠ get_data_cache_key "mag" "wind" [1500000000]
        [("cache", .jbool true), ("frame", .jstr "HEEQ")] := by
  decide

/-- C3 (amended): `identifier.update(kwargs)` runs before the pops of
`cache` and `frame`, so the identity record keeps EVERY keyword option —
`cache`, `frame` and `frame_static` included — alongside the data key, the
spacecraft name and the epoch-second timestamps; consequently two calls
whose option lists share names but differ canonically in any option value
(smoothing options included) serialize differently and derive different
cache keys up to hash collision. -/
theorem C3_cache_key_identity :
    (∀ (dk nm : String) (ts : List Int) (kwargs : List (String × JVal)),
      (∀ q ∈ kwargs, q.1 ≠ "data_key" ∧ q.1 ≠ "spacecraft" ∧ q.1 ≠ "times") →
      get_data_identifier dk nm ts kwargs
        = .jobj (base_identifier dk nm ts ++ kwargs)) ∧
    (∀ (dk nm : String) (ts : List Int) (kw1 kw2 : List (String × JVal)),
      (∀ q ∈ kw1, q.1 ≠ "data_key" ∧ q.1 ≠ "spacecraft" ∧ q.1 ≠ "times") →
      (∀ q ∈ kw2, q.1 ≠ "data_key" ∧ q.1 ≠ "spacecraft" ∧ q.1 ≠ "times") →
      kw1.map Prod.fst = kw2.map Prod.fst →
      (kw1.map Prod.fst).Nodup →
      kw1.map (fun p => (p.1, canon p.2)) ≠ kw2.map (fun p => (p.1, canon p.2)) →
      dumps (get_data_identifier dk nm ts kw1)
        ≠ dumps (get_data_identifier dk nm ts kw2)) := by
  refine ⟨get_data_identifier_disjoint, ?_⟩
  intro dk nm ts kw1 kw2 h1 h2 hkeys hnd hvals hdeq
  apply hvals
  have hcanon : canon (get_data_identifier dk nm ts kw1)
      = canon (get_data_identifier dk nm ts kw2) := ser_inj hdeq
  rw [get_data_identifier_disjoint dk nm ts kw1 h1,
    get_data_identifier_disjoint dk nm ts kw2 h2] at hcanon
  rw [show canon (JVal.jobj (base_identifier dk nm ts ++ kw1))
      = JVal.jobj (sortPairs (canonPairs (base_identifier dk nm ts ++ kw1)))
      from rfl,
    show canon (JVal.jobj (base_identifier dk nm ts ++ kw2))
      = JVal.jobj (sortPairs (canonPairs (base_identifier dk nm ts ++ kw2)))
      from rfl] at hcanon
  injection hcanon with hsp
  have hX : canonPairs (base_identifier dk nm ts ++ kw1)
      = canonPairs (base_identifier dk nm ts ++ kw2) := by
    apply perm_eq_of_map_fst_eq
    · have hp1 := sortPairs_perm (canonPairs (base_identifier dk nm ts ++ kw1))
      have hp2 := sortPairs_perm (canonPairs (base_identifier dk nm ts ++ kw2))
      rw [hsp] at hp1
      exact hp1.symm.trans hp2
    · rw [canonPairs_map_fst, canonPairs_map_fst, List.map_append,
        List.map_append, hkeys]
    · rw [canonPairs_map_fst, List.map_append]
      apply List.Nodup.append
      · rw [show (base_identifier dk nm ts).map Prod.fst
            = ["data_key", "spacecraft", "times"] from rfl]
        decide
      · exact hnd
      · rw [show (base_identifier dk nm ts).map Prod.fst
            = ["data_key", "spacecraft", "times"] from rfl]
        intro a ha hamem
        simp only [List.mem_cons, List.not_mem_nil, or_false] at ha
        obtain ⟨q, hq, hq1⟩ := List.mem_map.mp hamem
        rcases ha with rfl | rfl | rfl
        · exact (h1 q hq).1 hq1
        · exact (h1 q hq).2.1 hq1
        · exact (h1 q hq).2.2 hq1
  rw [canonPairs_eq_map, canonPairs_eq_map, List.map_append, List.map_append] at hX
  exact List.append_cancel_left hX

/-- C3 amended-claim witness at concrete calls. -/
theorem C3_cache_key_identity_witness :
    get_data_identifier "mag" "wind" [0] [("frame", .jstr "GSE")]
      = .jobj (base_identifier "mag" "wind" [0] ++ [("frame", .jstr "GSE")]) ∧
    dumps (get_data_identifier "mag" "wind" [0] [("smoothing", .jstr "kernel")])
      ≠ dumps (get_data_identifier "mag" "wind" [0]
          [("smoothing", .jstr "closest")]) := by
  refine ⟨C3_cache_key_identity.1 "mag" "wind" [0] _ (by decide),
    C3_cache_key_identity.2 "mag" "wind" [0] _ _ (by decide) (by decide) rfl
      (by decide) ?_⟩
  intro h
  simp [canon] at h

end HelioSat
